import Mathlib

/-!
Verification of the natural-language specification of the
`udp-hole-punching` repository against a shallow embedding of its code.

The embedding translates the Rust sources into Lean definitions:

* `src/operation.rs`      → `Punch.Op`, `Punch.resolveRun`, `Punch.perform`
* `src/file_transfer/bit_array.rs` → `Punch.BitArray`
* `src/file_transfer/block.rs`     → `Punch.last_block_index_size`,
  `Punch.blockWriterNew`, `Punch.BlockWriter`, `Punch.BlockBuffer`
* `src/file_transfer/send.rs`      → `Punch.SBC` (the `SendBlockComplete`
  operation) and `Punch.sendBlockResends`
* `src/file_transfer/receive.rs`   → `Punch.receiveStep`
* `src/message.rs`        → `Punch.RMsg`, `Punch.RMsg.encode`, `Punch.RMsg.decode`
* `src/bin/peer.rs`       → `Punch.detectStep`, `Punch.runDetect`
* `src/bin/server.rs`     → `Punch.serverStep1`, `Punch.serverStep2`, `Punch.peerGc`

Async code is embedded by explicit state passing: a retry operation is a
state type together with pure `poll` / `step` / `result` functions, and the
scheduler's interleaving is abstracted as the list of messages an operation
gets to process before each 150 ms timer expiry (`rounds : List (List M)`).
Cancellation of a pending `resolve` keeps the state mutations it performed
before suspending, which the model reflects by threading the state of an
exhausted round into the next one.

Machine integers are modelled as `Nat` with explicit `% 2 ^ 32` at the
places where the source casts with `as u32`.
-/

namespace Punch

/-! ## Retry operation (`src/operation.rs`) -/

/-- Retry budget, `Operation::RETRY_COUNT` in `src/operation.rs`. -/
def RETRY_COUNT : Nat := 3

/-- Retry interval in milliseconds, `Operation::RETRY_DURATION`. -/
def RETRY_DURATION_MS : Nat := 150

/-- Model of the `Operation<T>` trait (`src/operation.rs` lines 8-26).
`poll` sends the request (its network output is not tracked; only its state
effect is), `step` is one iteration of the `resolve` receive loop, returning
either an updated state (keep looping) or the final value, and `result` is
the optional fallback consulted when the retry budget expires. -/
structure Op (σ M T : Type) where
  poll : σ → σ
  step : σ → M → σ ⊕ T
  result : σ → Option T

/-- Run an operation's `resolve` loop over the messages available in one
timer interval.  Returning `Sum.inl` models the 150 ms timer firing while
`resolve` is still pending: the loop is cancelled but the state mutations it
made so far survive, because the operation owns its state across polls. -/
def resolveRun (step : σ → M → σ ⊕ T) : σ → List M → σ ⊕ T
  | s, [] => Sum.inl s
  | s, m :: ms =>
    match step s m with
    | Sum.inl s' => resolveRun step s' ms
    | Sum.inr v => Sum.inr v

/-- Outcome of `perform` (`src/operation.rs` lines 29-54): the value can come
from a completed `resolve`, from the `result()` fallback after the retry
budget is exhausted, or the whole operation times out. -/
inductive POut (T : Type) where
  | resolved (v : T)
  | fromResult (v : T)
  | timedOut
  deriving DecidableEq, Repr

/-- Loop body of `perform`: `attemptsLeft` is `RETRY_COUNT - attempt` for the
`attempt` counter of the source; each recursive call is one firing of the
150 ms timer followed by a re-`poll`.  The second component of the value
counts the `poll` calls made inside the loop. -/
def performGo (op : Op σ M T) : σ → List (List M) → Nat → POut T × Nat
  | s, rounds, attemptsLeft =>
    match resolveRun op.step s (rounds.headD []) with
    | Sum.inr v => (POut.resolved v, 0)
    | Sum.inl s' =>
      match attemptsLeft with
      | Nat.succ n =>
        let r := performGo op (op.poll s') rounds.tail n
        (r.1, r.2 + 1)
      | 0 =>
        match op.result s' with
        | some v => (POut.fromResult v, 0)
        | none => (POut.timedOut, 0)

/-- Model of `perform` (`src/operation.rs` lines 29-54).  The initial `poll`
is counted in the second component, so that component is the total number of
`poll` calls of the run. -/
def perform (op : Op σ M T) (s : σ) (rounds : List (List M)) : POut T × Nat :=
  let r := performGo op (op.poll s) rounds RETRY_COUNT
  (r.1, r.2 + 1)

/-- Restatement of `perform` from the words of the specification: call `poll`
once, race `resolve` against the timer, on each of at most three timer
expiries re-`poll`, and when the budget is exhausted fall back to `result()`
or a timed-out error.  Written as the explicit four-round unrolling the
specification describes; compared against `perform` in the theorem for C3. -/
def performSpec (op : Op σ M T) (s : σ) (rounds : List (List M)) : POut T × Nat :=
  let s1 := op.poll s
  match resolveRun op.step s1 (rounds.headD []) with
  | Sum.inr v => (POut.resolved v, 1)
  | Sum.inl t1 =>
    let s2 := op.poll t1
    match resolveRun op.step s2 (rounds.tail.headD []) with
    | Sum.inr v => (POut.resolved v, 2)
    | Sum.inl t2 =>
      let s3 := op.poll t2
      match resolveRun op.step s3 (rounds.tail.tail.headD []) with
      | Sum.inr v => (POut.resolved v, 3)
      | Sum.inl t3 =>
        let s4 := op.poll t3
        match resolveRun op.step s4 (rounds.tail.tail.tail.headD []) with
        | Sum.inr v => (POut.resolved v, 4)
        | Sum.inl t4 =>
          match op.result t4 with
          | some v => (POut.fromResult v, 4)
          | none => (POut.timedOut, 4)

/-! ## Transfer messages (`src/file_transfer/message.rs`) -/

/-- Transfer-protocol message (`Message` in `src/file_transfer/message.rs`).
Integer fields are `u32`/`u64` in the source and are modelled as `Nat`;
the chunk payload of `FilePart` travels outside the serialized message and
is passed separately where needed. -/
inductive TMsg where
  | request (name : List Nat) (size : Nat) (resume : Bool)
  | response (blockSize chunkSize startBlock : Nat)
  | filePart (block chunk : Nat)
  | blockComplete (block : Nat)
  | blockCompleteAck (block : Nat)
  | blockMissingChunk (block : Nat) (chunk : List Nat) (count : Nat)
  | fileComplete
  | fileCompleteAck
  deriving DecidableEq, Repr

/-! ## SendBlockComplete (`src/file_transfer/send.rs` lines 139-187) -/

/-- Model of the `SendBlockComplete` operation for block `b`.  The state is
the `missing_chunk : Option<Vec<u32>>` accumulator.  `poll` sends
`BlockComplete(b)` (no state effect); `step` is one arm of the `resolve`
receive loop: a matching `BlockCompleteAck` resolves with the empty list, a
matching `BlockMissingChunk` extends the accumulator and resolves with it
once its length equals `count`; `result` is `self.missing_chunk.take()`. -/
def SBC (b : Nat) : Op (Option (List Nat)) TMsg (List Nat) where
  poll := id
  step := fun s m =>
    match m with
    | TMsg.blockCompleteAck b' => if b' = b then Sum.inr [] else Sum.inl s
    | TMsg.blockMissingChunk b' ch cnt =>
      if b' = b then
        let v := s.getD [] ++ ch
        if v.length = cnt then Sum.inr v else Sum.inl (some v)
      else Sum.inl s
    | _ => Sum.inl s
  result := fun s => s

/-- Decision taken by `send_block` (`src/file_transfer/send.rs` lines 87-101)
on the value `perform` returns: an empty missing list breaks the loop, a
nonempty one is resent chunk by chunk; a timed-out error propagates and no
resend happens. -/
def sendBlockResends (r : POut (List Nat)) : Bool :=
  match r with
  | POut.resolved v => !v.isEmpty
  | POut.fromResult v => !v.isEmpty
  | POut.timedOut => false

/-- Chunk index `x` appears in the chunk list of some
`BlockMissingChunk{b, ..}` message among `msgs`. -/
def chunkFrom (b : Nat) (msgs : List TMsg) (x : Nat) : Prop :=
  ∃ ch cnt, TMsg.blockMissingChunk b ch cnt ∈ msgs ∧ x ∈ ch

/-! ## Bit array (`src/file_transfer/bit_array.rs`) -/

/-- Value of `u64::MAX`. -/
def U64_MAX : Nat := 2 ^ 64 - 1

/-- Model of `BitArray`: the backing `Vec<u64>` as a list of word values
(each kept below `2 ^ 64`) plus the bit length. -/
structure BitArray where
  vec : List Nat
  len : Nat
  deriving DecidableEq, Repr

/-- Backing length `len / 64 + (len % 64).min(1)` used by both
`BitArray::new` and `BitArray::reset`. -/
def bitVecLen (len : Nat) : Nat := len / 64 + min (len % 64) 1

/-- Model of `BitArray::fill_unused` (`bit_array.rs` lines 76-82): when the
backing array has unused bits, overwrite the last word with
`u64::MAX >> (64 - unused)`, pre-filling the unused low bits with ones. -/
def BitArray.fill_unused (a : BitArray) : BitArray :=
  let unused := a.vec.length * 64 - a.len
  if unused > 0 then
    { a with vec := a.vec.set (a.vec.length - 1) (U64_MAX >>> (64 - unused)) }
  else a

/-- Model of `BitArray::new` (`bit_array.rs` lines 20-28). -/
def BitArray.new (len : Nat) : BitArray :=
  BitArray.fill_unused { vec := List.replicate (bitVecLen len) 0, len := len }

/-- Model of `BitArray::reset` (`bit_array.rs` lines 30-42): the backing
array is resized to the new word count and zeroed in place, then the unused
bits are pre-filled; retained spare capacity is not part of the logical
state, so the result coincides with a fresh array. -/
def BitArray.reset (_a : BitArray) (len : Nat) : BitArray :=
  BitArray.fill_unused { vec := List.replicate (bitVecLen len) 0, len := len }

/-- Model of `BitArray::set` (`bit_array.rs` lines 52-58); the source
asserts `index < len` before the update, which theorems carry as a
hypothesis. -/
def BitArray.set (a : BitArray) (index : Nat) : BitArray :=
  { a with
    vec := a.vec.set (index / 64)
      (a.vec.getD (index / 64) 0 ||| 1 <<< (63 - index % 64)) }

/-- Model of `BitArray::is_set` (`bit_array.rs` lines 44-50). -/
def BitArray.is_set (a : BitArray) (index : Nat) : Bool :=
  decide (0 < a.vec.getD (index / 64) 0 &&& 1 <<< (63 - index % 64))

/-- Inner loop of `BitArray::collect_unset` (`bit_array.rs` lines 63-72) for
the word `v` at position `p`: skip a full word, otherwise walk bit `i` from
63 down to 0 and push `p * 64 + 63 - i` for each clear bit. -/
def wordUnset (p v : Nat) : List Nat :=
  if v = U64_MAX then []
  else
    (List.range 64).reverse.filterMap fun i =>
      if v &&& 1 <<< i = 0 then some (p * 64 + (63 - i)) else none

/-- Outer loop of `BitArray::collect_unset`, carrying the running word
position. -/
def collectGo : Nat → List Nat → List Nat
  | _, [] => []
  | p, v :: ws => wordUnset p v ++ collectGo (p + 1) ws

/-- Model of `BitArray::collect_unset` (`bit_array.rs` lines 60-74). -/
def BitArray.collect_unset (a : BitArray) : List Nat :=
  collectGo 0 a.vec

/-- Apply `BitArray::set` for every index of a list in order. -/
def BitArray.setAll (a : BitArray) (S : List Nat) : BitArray :=
  S.foldl BitArray.set a

/-- Proof-level accessor: the stored bit for index `j`, living at bit
`63 - j % 64` of word `j / 64`. -/
def BitArray.bitAt (a : BitArray) (j : Nat) : Bool :=
  (a.vec.getD (j / 64) 0).testBit (63 - j % 64)

/-! ## Block arithmetic and block writer (`src/file_transfer/block.rs`) -/

/-- Modulus of `u32`. -/
def U32_MOD : Nat := 2 ^ 32

/-- Model of `last_block_index_size` (`block.rs` lines 75-83).  The source
computes the quotient and remainder on `u64` and then casts with `as u32`:
`q as u32` truncates modulo `2 ^ 32`, and in the divisible branch
`q as u32 - 1` is `u32` wrapping subtraction. -/
def last_block_index_size (fileSize blockSize : Nat) : Nat × Nat :=
  let q := fileSize / blockSize
  let r := fileSize % blockSize
  if r = 0 then ((q % U32_MOD + (U32_MOD - 1)) % U32_MOD, blockSize)
  else (q % U32_MOD, r % U32_MOD)

/-- Model of `last_chunk_index_size` (`block.rs` lines 281-289); here all
arithmetic stays inside `u32`/`u16`, no casts truncate. -/
def last_chunk_index_size (blockSize chunkSize : Nat) : Nat × Nat :=
  let q := blockSize / chunkSize
  let r := blockSize % chunkSize
  if r = 0 then (q - 1, chunkSize) else (q, r)

/-- Outcome of `BlockWriter::new` with the filesystem abstracted away. -/
inductive WriterInit where
  | emptyFile
  | complete
  | writer (startBlock seekTo : Nat) (truncated : Bool)
  deriving DecidableEq, Repr

/-- Model of the control flow of `BlockWriter::new` (`block.rs` lines
139-189): `partExists`/`partSize` describe the `.part` sidecar found on
disk.  `emptyFile`: the target size is zero, the final file is created
directly and no writer is returned — the sidecar, if any, is not touched.
`complete`: the sidecar is renamed to the final path and no writer is
returned.  `writer startBlock seekTo truncated`: a writer whose
`next_block` is `startBlock` (through the `as u32` cast) with the file
positioned at byte `seekTo` (computed before the cast); `truncated` records
whether the sidecar was opened with truncate. -/
def blockWriterNew (fileSize blockSize : Nat) (resume partExists : Bool)
    (partSize : Nat) : WriterInit :=
  if fileSize = 0 then WriterInit.emptyFile
  else if resume && partExists then
    if partSize < fileSize then
      WriterInit.writer (partSize / blockSize % U32_MOD)
        (partSize / blockSize * blockSize) false
    else if partSize = fileSize then WriterInit.complete
    else WriterInit.writer 0 0 true
  else WriterInit.writer 0 0 true

/-- Runtime state of a `BlockWriter` (`block.rs` lines 118-137): the block
and chunk geometry, the index of the block in progress, the block buffer,
the chunk-presence bit array, and the bytes committed to the file so far. -/
structure BlockWriter where
  blockSize : Nat
  chunkSize : Nat
  nextBlock : Nat
  lastBlock : Nat
  lastBlockSize : Nat
  buf : List Nat
  writeFlag : BitArray
  fileData : List Nat
  deriving DecidableEq, Repr

/-- Per-block fields of a `BlockBuffer` (`block.rs` lines 239-244); its
`index()` is the writer's `next_block`. -/
structure BlockBuffer where
  bsize : Nat
  lastChunk : Nat
  lastChunkSize : Nat
  deriving DecidableEq, Repr

/-- Model of `BlockWriter::next_block` (`block.rs` lines 191-210): pick the
size of the block in progress (`None` past the last block), reset the
chunk-presence bit array to this block's chunk count, and compute the last
chunk index and size. -/
def writerNextBlock (w : BlockWriter) : Option (BlockWriter × BlockBuffer) :=
  let bsizeO : Option Nat :=
    if w.nextBlock < w.lastBlock then some w.blockSize
    else if w.nextBlock = w.lastBlock then some w.lastBlockSize
    else none
  match bsizeO with
  | none => none
  | some bsize =>
    let chunkCount := bsize / w.chunkSize + min (bsize % w.chunkSize) 1
    let p := last_chunk_index_size bsize w.chunkSize
    some ({ w with writeFlag := w.writeFlag.reset chunkCount },
      { bsize := bsize, lastChunk := p.1, lastChunkSize := p.2 })

/-- Overwrite `buf[start .. start + data.length]` with `data`. -/
def listWriteSlice (buf : List Nat) (start : Nat) (data : List Nat) :
    List Nat :=
  buf.take start ++ data ++ buf.drop (start + data.length)

/-- Body of `BlockBuffer::write` after the length checks pass: first write
wins, duplicates are ignored (`block.rs` lines 267-271). -/
def writeChecked (w : BlockWriter) (chunk : Nat) (data : List Nat) :
    BlockWriter :=
  if w.writeFlag.is_set chunk then w
  else
    { w with
      writeFlag := w.writeFlag.set chunk
      buf := listWriteSlice w.buf (w.chunkSize * chunk) data }

/-- Model of `BlockBuffer::write` (`block.rs` lines 261-272).  `none` models
a panic: a failed `assert_eq!` on the payload length for a non-final or
final chunk, or the explicit `panic!` for a chunk index past the last
chunk. -/
def blockWrite (w : BlockWriter) (cb : BlockBuffer) (chunk : Nat)
    (data : List Nat) : Option BlockWriter :=
  if chunk < cb.lastChunk then
    if data.length = w.chunkSize then some (writeChecked w chunk data)
    else none
  else if chunk = cb.lastChunk then
    if data.length = cb.lastChunkSize then some (writeChecked w chunk data)
    else none
  else none

/-- Model of `BlockBuffer::commit` (`block.rs` lines 252-258): advance
`next_block` and append the first `block_size` bytes of the buffer to the
file. -/
def blockCommit (w : BlockWriter) (cb : BlockBuffer) : BlockWriter :=
  { w with
    nextBlock := w.nextBlock + 1
    fileData := w.fileData ++ w.buf.take cb.bsize }

/-- Split a list into chunks of `n + 1` elements, modelling
`slice::chunks` for a positive chunk size. -/
def chunksOf (n : Nat) : List Nat → List (List Nat)
  | [] => []
  | x :: xs => (x :: xs).take (n + 1) :: chunksOf n (xs.drop n)
termination_by l => l.length
decreasing_by
  simp only [List.length_cons, List.length_drop]
  omega

/-- Result of one iteration of the receiver's main loop: the new writer and
block-buffer state, the messages sent, and whether the loop exits; or a
panic escaping from `BlockBuffer::write`. -/
inductive RecvOutcome where
  | ok (w : BlockWriter) (cb : BlockBuffer) (out : List TMsg) (exitLoop : Bool)
  | panicked
  deriving DecidableEq, Repr

/-- Model of one iteration of the receiver's main loop
(`src/file_transfer/receive.rs` lines 55-88) on a received message and its
trailing payload:

* `FilePart{b, c}` with `b` equal to the index of the block in progress is
  written (possibly panicking); any other `b` is ignored;
* `BlockComplete(b)` for the block in progress answers `BlockCompleteAck`
  and commits when no chunk is missing (exiting when the writer is
  exhausted), otherwise sends the missing list fragmented into
  `BlockMissingChunk` messages of at most 100 chunks, all carrying
  `count = total missing`;
* `BlockComplete(b)` with `b + 1` equal to the index in progress resends
  `BlockCompleteAck(b)` and changes nothing;
* everything else is ignored. -/
def receiveStep (w : BlockWriter) (cb : BlockBuffer) (msg : TMsg)
    (data : List Nat) : RecvOutcome :=
  match msg with
  | TMsg.filePart b c =>
    if b = w.nextBlock then
      match blockWrite w cb c data with
      | some w' => RecvOutcome.ok w' cb [] false
      | none => RecvOutcome.panicked
    else RecvOutcome.ok w cb [] false
  | TMsg.blockComplete b =>
    if b = w.nextBlock then
      let missing := w.writeFlag.collect_unset
      if missing.isEmpty then
        let w' := blockCommit w cb
        match writerNextBlock w' with
        | some (w2, cb2) =>
          RecvOutcome.ok w2 cb2 [TMsg.blockCompleteAck b] false
        | none => RecvOutcome.ok w' cb [TMsg.blockCompleteAck b] true
      else
        RecvOutcome.ok w cb
          ((chunksOf 99 missing).map fun v =>
            TMsg.blockMissingChunk b v missing.length) false
    else if b + 1 = w.nextBlock then
      RecvOutcome.ok w cb [TMsg.blockCompleteAck b] false
    else RecvOutcome.ok w cb [] false
  | _ => RecvOutcome.ok w cb [] false

/-! ## Rendezvous messages and wire codec (`src/message.rs`) -/

/-- Socket address as serialized by serde: a V4/V6 variant with the IP
octets and the port.  Well-formedness (octet count and ranges) is the
`SockAddr.wfB` predicate. -/
inductive SockAddr where
  | v4 (ip : List Nat) (port : Nat)
  | v6 (ip : List Nat) (port : Nat)
  deriving DecidableEq, Repr

/-- Rendezvous message (`Message` in `src/message.rs`), one constructor per
variant in declaration order, so the bincode variant tags are 0..10. -/
inductive RMsg where
  | query
  | address (addr : SockAddr)
  | register (id : List Nat)
  | registerAck
  | lookup (peerId : List Nat)
  | peer (addr : Option SockAddr)
  | request (peerAddr : SockAddr)
  | response (peerAddr : SockAddr)
  | responseAck
  | hello
  | helloAck
  deriving DecidableEq, Repr

/-- Trailing magic (`MAGIC` in `src/message.rs` line 48). -/
def MAGIC : List Nat := [205, 126, 86, 230, 111, 189, 169, 142]

/-- Little-endian fixed-width integer encoding over `k` bytes. -/
def encLE : Nat → Nat → List Nat
  | 0, _ => []
  | k + 1, n => n % 256 :: encLE k (n / 256)

/-- Little-endian fixed-width integer decoding over `k` bytes, returning
the value and the unconsumed remainder. -/
def parseLE : Nat → List Nat → Option (Nat × List Nat)
  | 0, rest => some (0, rest)
  | _ + 1, [] => none
  | k + 1, b :: rest =>
    match parseLE k rest with
    | some (n, rest') => some (b + 256 * n, rest')
    | none => none

/-- Length-prefixed byte string (bincode: `u64` length, then the bytes). -/
def encBytes (bs : List Nat) : List Nat := encLE 8 bs.length ++ bs

/-- Decode a length-prefixed byte string. -/
def parseBytes (data : List Nat) : Option (List Nat × List Nat) :=
  match parseLE 8 data with
  | some (n, rest) =>
    if n ≤ rest.length then some (rest.take n, rest.drop n) else none
  | none => none

/-- Consume exactly `k` raw bytes. -/
def parseFixed (k : Nat) (data : List Nat) : Option (List Nat × List Nat) :=
  if k ≤ data.length then some (data.take k, data.drop k) else none

/-- Serde encoding of `SocketAddr`: `u32` variant tag, raw IP octets,
`u16` port. -/
def encAddr : SockAddr → List Nat
  | SockAddr.v4 ip port => encLE 4 0 ++ ip ++ encLE 2 port
  | SockAddr.v6 ip port => encLE 4 1 ++ ip ++ encLE 2 port

/-- Decode a `SocketAddr`. -/
def parseAddr (data : List Nat) : Option (SockAddr × List Nat) :=
  match parseLE 4 data with
  | some (0, rest) =>
    match parseFixed 4 rest with
    | some (ip, rest2) =>
      match parseLE 2 rest2 with
      | some (port, rest3) => some (SockAddr.v4 ip port, rest3)
      | none => none
    | none => none
  | some (1, rest) =>
    match parseFixed 16 rest with
    | some (ip, rest2) =>
      match parseLE 2 rest2 with
      | some (port, rest3) => some (SockAddr.v6 ip port, rest3)
      | none => none
    | none => none
  | _ => none

/-- Serde encoding of `Option<SocketAddr>`: one tag byte then the value. -/
def encOptAddr : Option SockAddr → List Nat
  | none => [0]
  | some a => 1 :: encAddr a

/-- Decode an `Option<SocketAddr>`. -/
def parseOptAddr (data : List Nat) : Option (Option SockAddr × List Nat) :=
  match data with
  | 0 :: rest => some (none, rest)
  | 1 :: rest => (parseAddr rest).map fun p => (some p.1, p.2)
  | _ => none

/-- Bincode serialization of a rendezvous message: `u32` variant tag in
declaration order, then the variant payload. -/
def RMsg.enc : RMsg → List Nat
  | RMsg.query => encLE 4 0
  | RMsg.address a => encLE 4 1 ++ encAddr a
  | RMsg.register id => encLE 4 2 ++ encBytes id
  | RMsg.registerAck => encLE 4 3
  | RMsg.lookup pid => encLE 4 4 ++ encBytes pid
  | RMsg.peer a => encLE 4 5 ++ encOptAddr a
  | RMsg.request a => encLE 4 6 ++ encAddr a
  | RMsg.response a => encLE 4 7 ++ encAddr a
  | RMsg.responseAck => encLE 4 8
  | RMsg.hello => encLE 4 9
  | RMsg.helloAck => encLE 4 10

/-- Bincode deserialization of a rendezvous message from a prefix of the
input, returning the unconsumed remainder
(`bincode::deserialize_from(&mut data)` in `src/message.rs` line 62). -/
def parseRMsg (data : List Nat) : Option (RMsg × List Nat) :=
  match parseLE 4 data with
  | some (0, rest) => some (RMsg.query, rest)
  | some (1, rest) => (parseAddr rest).map fun p => (RMsg.address p.1, p.2)
  | some (2, rest) => (parseBytes rest).map fun p => (RMsg.register p.1, p.2)
  | some (3, rest) => some (RMsg.registerAck, rest)
  | some (4, rest) => (parseBytes rest).map fun p => (RMsg.lookup p.1, p.2)
  | some (5, rest) => (parseOptAddr rest).map fun p => (RMsg.peer p.1, p.2)
  | some (6, rest) => (parseAddr rest).map fun p => (RMsg.request p.1, p.2)
  | some (7, rest) => (parseAddr rest).map fun p => (RMsg.response p.1, p.2)
  | some (8, rest) => some (RMsg.responseAck, rest)
  | some (9, rest) => some (RMsg.hello, rest)
  | some (10, rest) => some (RMsg.helloAck, rest)
  | _ => none

/-- Model of `Message::encode` (`src/message.rs` lines 50-58): serialize,
then append the 8-byte magic. -/
def RMsg.encode (m : RMsg) : List Nat := m.enc ++ MAGIC

/-- Model of `Message::decode` (`src/message.rs` lines 60-69): deserialize
from a prefix; succeed only if the remainder is exactly the magic. -/
def RMsg.decode (data : List Nat) : Option RMsg :=
  match parseRMsg data with
  | some (m, rest) => if rest = MAGIC then some m else none
  | none => none

/-- Well-formedness of a modelled socket address: the invariants the Rust
`SocketAddr` type carries (octet count, octet and port ranges). -/
def SockAddr.wfB : SockAddr → Bool
  | SockAddr.v4 ip port =>
    decide (ip.length = 4) && ip.all (fun b => decide (b < 256))
      && decide (port < 2 ^ 16)
  | SockAddr.v6 ip port =>
    decide (ip.length = 16) && ip.all (fun b => decide (b < 256))
      && decide (port < 2 ^ 16)

/-- Well-formedness of a modelled rendezvous message: the invariants the
Rust types carry (`Vec<u8>` bytes below 256 and length below `2 ^ 64`,
well-formed addresses). -/
def RMsg.wfB : RMsg → Bool
  | RMsg.address a => a.wfB
  | RMsg.register id =>
    decide (id.length < 2 ^ 64) && id.all (fun b => decide (b < 256))
  | RMsg.lookup pid =>
    decide (pid.length < 2 ^ 64) && pid.all (fun b => decide (b < 256))
  | RMsg.peer (some a) => a.wfB
  | RMsg.request a => a.wfB
  | RMsg.response a => a.wfB
  | _ => true

/-! ## Symmetric NAT detection (`src/bin/peer.rs` lines 221-283) -/

/-- Verdict of `DetectSymmetricNat::resolve`: `Ok(())` or the
`symmetric nat` error. -/
inductive DetectOut where
  | ok
  | symNat
  deriving DecidableEq, Repr

/-- State of `DetectSymmetricNat`: the `Address` replies observed so far
from each of the two server endpoints. -/
structure DetectState where
  a1 : Option SockAddr
  a2 : Option SockAddr
  deriving DecidableEq, Repr

/-- Completion check of `DetectSymmetricNat::resolve` (`peer.rs` lines
272-279): once both replies are recorded, return `Ok` when they are equal
and the `symmetric nat` error otherwise. -/
def detectCheck (st : DetectState) : DetectState ⊕ DetectOut :=
  match st.a1, st.a2 with
  | some x, some y =>
    Sum.inr (if x = y then DetectOut.ok else DetectOut.symNat)
  | _, _ => Sum.inl st

/-- One iteration of `DetectSymmetricNat::resolve` (`peer.rs` lines
261-282): an `Address` reply from server endpoint 1 or 2 records the
observed address and runs the completion check; a reply from any other
source (or any other message) is skipped without checking. -/
def detectStep (s1 s2 : SockAddr) (st : DetectState)
    (inp : RMsg × SockAddr) : DetectState ⊕ DetectOut :=
  match inp with
  | (RMsg.address a, src) =>
    if src = s1 then detectCheck { st with a1 := some a }
    else if src = s2 then detectCheck { st with a2 := some a }
    else Sum.inl st
  | _ => Sum.inl st

/-- The `DetectSymmetricNat` operation: `poll` re-sends `Query` to any
endpoint that has not answered yet (no state effect), `result` is the
default `None`. -/
def DetectOp (s1 s2 : SockAddr) :
    Op DetectState (RMsg × SockAddr) DetectOut where
  poll := id
  step := detectStep s1 s2
  result := fun _ => none

/-- Run `perform` on a fresh `DetectSymmetricNat` (both fields `None`, as
built by `DetectSymmetricNat::new`) with all inbound packets delivered in
the first retry round. -/
def runDetect (s1 s2 : SockAddr) (ms : List (RMsg × SockAddr)) :
    POut DetectOut × Nat :=
  perform (DetectOp s1 s2) ⟨none, none⟩ [ms]

/-- Modelled from `run` (`peer.rs` lines 59-77): the `?` on
`perform(DetectSymmetricNat)` aborts the peer before `Register` is ever
sent, so the peer registers only when detection succeeded. -/
def peerRegistersAfterDetect : DetectOut → Bool
  | DetectOut.ok => true
  | DetectOut.symNat => false

/-! ## Rendezvous server (`src/bin/server.rs`) -/

/-- One registry entry: `id → (observed addr, last_seen)`.  Time is
modelled as seconds since an arbitrary origin (`Instant` is monotonic, so
`last_seen ≤ now` and `elapsed` is truncated subtraction). -/
structure PeerEntry where
  id : List Nat
  addr : SockAddr
  lastSeen : Nat
  deriving DecidableEq, Repr

/-- Server state: the peer registry (a `HashMap`, modelled as a list with
distinct ids) and the GC timestamp `peer_gc_at`. -/
structure ServerState where
  peers : List PeerEntry
  gcAt : Nat
  deriving DecidableEq, Repr

/-- GC staleness window, 600 s (`server.rs` lines 86 and 102). -/
def GC_WINDOW_SECS : Nat := 600

/-- Registry size threshold for a sweep (`server.rs` line 86). -/
def GC_SIZE_THRESHOLD : Nat := 256

/-- Model of `peers.insert(id, (src, now))`: replace the entry with that id
if present, append otherwise. -/
def insertPeer (peers : List PeerEntry) (id : List Nat) (src : SockAddr)
    (now : Nat) : List PeerEntry :=
  if peers.any fun e => e.id = id then
    peers.map fun e => if e.id = id then ⟨id, src, now⟩ else e
  else peers ++ [⟨id, src, now⟩]

/-- Model of `peers.get(&peer_id)` returning the recorded address. -/
def lookupPeer (peers : List PeerEntry) (id : List Nat) :
    Option SockAddr :=
  (peers.find? fun e => e.id = id).map fun e => e.addr

/-- Model of `peer_gc` (`server.rs` lines 98-110): collect the ids of the
entries more than 600 s old, then remove each collected id from the map;
since a map holds one entry per id, the removal is a filter. -/
def peerGc (peers : List PeerEntry) (now : Nat) : List PeerEntry :=
  let gc := (peers.filter fun e =>
    decide (now - e.lastSeen > GC_WINDOW_SECS)).map fun e => e.id
  peers.filter fun e => decide (e.id ∉ gc)

/-- Dispatch of the server's first socket (`server.rs` lines 51-77): the
new state and the datagrams sent, each with its destination. -/
def serverStep1 (st : ServerState) (msg : RMsg) (src : SockAddr)
    (now : Nat) : ServerState × List (RMsg × SockAddr) :=
  match msg with
  | RMsg.query => (st, [(RMsg.address src, src)])
  | RMsg.register id =>
    ({ st with peers := insertPeer st.peers id src now },
      [(RMsg.registerAck, src)])
  | RMsg.lookup pid =>
    match lookupPeer st.peers pid with
    | some addr => (st, [(RMsg.request src, addr)])
    | none => (st, [(RMsg.peer none, src)])
  | RMsg.response peerAddr =>
    (st, [(RMsg.responseAck, src), (RMsg.peer (some src), peerAddr)])
  | _ => (st, [])

/-- Dispatch of the server's second socket (`server.rs` lines 78-92):
`Query` is answered with the observed address and, when the registry holds
more than 256 entries and more than 600 s have elapsed since the last
sweep, stale entries are collected and the GC timestamp updated; every
other message is ignored. -/
def serverStep2 (st : ServerState) (msg : RMsg) (src : SockAddr)
    (now : Nat) : ServerState × List (RMsg × SockAddr) :=
  match msg with
  | RMsg.query =>
    if st.peers.length > GC_SIZE_THRESHOLD ∧ now - st.gcAt > GC_WINDOW_SECS
    then ({ peers := peerGc st.peers now, gcAt := now },
      [(RMsg.address src, src)])
    else (st, [(RMsg.address src, src)])
  | _ => (st, [])

theorem sbc_step_inr {b : Nat} {s : Option (List Nat)} {m : TMsg}
    {v : List Nat} (h : (SBC b).step s m = Sum.inr v) (hv : v ≠ []) :
    ∃ ch cnt, m = TMsg.blockMissingChunk b ch cnt ∧ v.length = cnt := by
  cases m <;> simp only [SBC] at h <;> try exact Sum.noConfusion h
  case blockCompleteAck b' =>
    split at h
    · exact absurd (Sum.inr.inj h).symm hv
    · exact Sum.noConfusion h
  case blockMissingChunk b' ch cnt =>
    split at h
    · next hb =>
      split at h
      · next hlen =>
        refine ⟨ch, cnt, by rw [hb], ?_⟩
        rw [← Sum.inr.inj h]
        exact hlen
      · exact Sum.noConfusion h
    · exact Sum.noConfusion h

theorem sbc_step_inl {b : Nat} {s s' : Option (List Nat)} {m : TMsg}
    (h : (SBC b).step s m = Sum.inl s') :
    ∀ x ∈ s'.getD [], x ∈ s.getD [] ∨ chunkFrom b [m] x := by
  intro x hx
  cases m <;> simp only [SBC] at h <;>
    first
    | (cases Sum.inl.inj h; exact Or.inl hx)
    | skip
  case blockCompleteAck b' =>
    split at h
    · exact Sum.noConfusion h
    · cases Sum.inl.inj h; exact Or.inl hx
  case blockMissingChunk b' ch cnt =>
    split at h
    · next hb =>
      split at h
      · simp at h
      · cases Sum.inl.inj h
        rcases List.mem_append.mp hx with hl | hr
        · exact Or.inl hl
        · exact Or.inr ⟨ch, cnt, by simp [hb], hr⟩
    · cases Sum.inl.inj h; exact Or.inl hx

theorem resolveRun_sbc_resolved {b : Nat} :
    ∀ (ms : List TMsg) (s : Option (List Nat)) (v : List Nat),
    resolveRun (SBC b).step s ms = Sum.inr v → v ≠ [] →
    ∃ ch cnt, TMsg.blockMissingChunk b ch cnt ∈ ms ∧ v.length = cnt := by
  intro ms
  induction ms with
  | nil => intro s v h _; simp [resolveRun] at h
  | cons m ms ih =>
    intro s v h hv
    rw [resolveRun] at h
    rcases hm : (SBC b).step s m with s' | w
    · rw [hm] at h
      obtain ⟨ch, cnt, hmem, hlen⟩ := ih s' v h hv
      exact ⟨ch, cnt, List.mem_cons_of_mem _ hmem, hlen⟩
    · rw [hm] at h
      cases Sum.inr.inj h
      obtain ⟨ch, cnt, hmeq, hlen⟩ := sbc_step_inr hm hv
      exact ⟨ch, cnt, by rw [← hmeq]; exact List.mem_cons_self _ _, hlen⟩

theorem resolveRun_sbc_stuck {b : Nat} :
    ∀ (ms : List TMsg) (s s' : Option (List Nat)),
    resolveRun (SBC b).step s ms = Sum.inl s' →
    ∀ x ∈ s'.getD [], x ∈ s.getD [] ∨ chunkFrom b ms x := by
  intro ms
  induction ms with
  | nil =>
    intro s s' h x hx
    rw [resolveRun] at h
    cases Sum.inl.inj h
    exact Or.inl hx
  | cons m ms ih =>
    intro s s' h x hx
    rw [resolveRun] at h
    rcases hm : (SBC b).step s m with t | w
    · rw [hm] at h
      rcases ih t s' h x hx with h1 | h2
      · rcases sbc_step_inl hm x h1 with h3 | ⟨ch, cnt, hmem, hch⟩
        · exact Or.inl h3
        · exact Or.inr ⟨ch, cnt, by simp at hmem; simp [hmem], hch⟩
      · obtain ⟨ch, cnt, hmem, hch⟩ := h2
        exact Or.inr ⟨ch, cnt, List.mem_cons_of_mem _ hmem, hch⟩
    · rw [hm] at h; simp at h

theorem mem_headD_flatten {α : Type} {rounds : List (List α)} {m : α}
    (h : m ∈ rounds.headD []) : m ∈ rounds.flatten := by
  cases rounds with
  | nil => simp at h
  | cons r rs => simpa using Or.inl h

theorem mem_tail_flatten {α : Type} {rounds : List (List α)} {m : α}
    (h : m ∈ rounds.tail.flatten) : m ∈ rounds.flatten := by
  cases rounds with
  | nil => simp at h
  | cons r rs => simpa using Or.inr h

theorem performGo_sbc_resolved {b : Nat} :
    ∀ (n : Nat) (s : Option (List Nat)) (rounds : List (List TMsg))
      (v : List Nat),
    (performGo (SBC b) s rounds n).1 = POut.resolved v → v ≠ [] →
    ∃ ch cnt, TMsg.blockMissingChunk b ch cnt ∈ rounds.flatten ∧
      v.length = cnt := by
  intro n
  induction n with
  | zero =>
    intro s rounds v h hv
    rw [performGo] at h
    rcases hr : resolveRun (SBC b).step s (rounds.headD []) with s' | w
    · rw [hr] at h
      rcases hres : (SBC b).result s' with _ | w <;> simp [hres] at h
    · rw [hr] at h
      cases h
      obtain ⟨ch, cnt, hmem, hlen⟩ := resolveRun_sbc_resolved _ _ _ hr hv
      exact ⟨ch, cnt, mem_headD_flatten hmem, hlen⟩
  | succ n ih =>
    intro s rounds v h hv
    rw [performGo] at h
    rcases hr : resolveRun (SBC b).step s (rounds.headD []) with s' | w
    · rw [hr] at h
      simp only at h
      obtain ⟨ch, cnt, hmem, hlen⟩ := ih ((SBC b).poll s') rounds.tail v h hv
      exact ⟨ch, cnt, mem_tail_flatten hmem, hlen⟩
    · rw [hr] at h
      cases h
      obtain ⟨ch, cnt, hmem, hlen⟩ := resolveRun_sbc_resolved _ _ _ hr hv
      exact ⟨ch, cnt, mem_headD_flatten hmem, hlen⟩

theorem performGo_sbc_fromResult {b : Nat} :
    ∀ (n : Nat) (s : Option (List Nat)) (rounds : List (List TMsg))
      (v : List Nat),
    (performGo (SBC b) s rounds n).1 = POut.fromResult v →
    ∀ x ∈ v, x ∈ s.getD [] ∨ chunkFrom b rounds.flatten x := by
  intro n
  induction n with
  | zero =>
    intro s rounds v h x hx
    rw [performGo] at h
    rcases hr : resolveRun (SBC b).step s (rounds.headD []) with s' | w
    · rw [hr] at h
      rcases hres : (SBC b).result s' with _ | w <;> simp [hres] at h
      have hs' : s' = some v := by
        have : (SBC b).result s' = s' := rfl
        rw [this] at hres; rw [hres, h]
      have hx' : x ∈ s'.getD [] := by rw [hs']; simpa using hx
      rcases resolveRun_sbc_stuck _ _ _ hr x hx' with h1 | ⟨ch, cnt, hmem, hch⟩
      · exact Or.inl h1
      · exact Or.inr ⟨ch, cnt, mem_headD_flatten hmem, hch⟩
    · rw [hr] at h; simp at h
  | succ n ih =>
    intro s rounds v h x hx
    rw [performGo] at h
    rcases hr : resolveRun (SBC b).step s (rounds.headD []) with s' | w
    · rw [hr] at h
      simp only at h
      rcases ih ((SBC b).poll s') rounds.tail v h x hx with h1 | ⟨ch, cnt, hmem, hch⟩
      · have h1' : x ∈ s'.getD [] := h1
        rcases resolveRun_sbc_stuck _ _ _ hr x h1' with h2 | ⟨ch, cnt, hmem, hch⟩
        · exact Or.inl h2
        · exact Or.inr ⟨ch, cnt, mem_headD_flatten hmem, hch⟩
      · exact Or.inr ⟨ch, cnt, mem_tail_flatten hmem, hch⟩
    · rw [hr] at h; simp at h

theorem and_shiftLeft_one_eq_zero (v i : Nat) :
    (v &&& 1 <<< i = 0) ↔ v.testBit i = false := by
  rw [Nat.shiftLeft_eq, one_mul, Nat.and_two_pow]
  cases h : v.testBit i <;> simp [h]

theorem wordUnset_eq (p v : Nat) :
    wordUnset p v = (List.range 64).filterMap fun k =>
      if v.testBit (63 - k) then none else some (p * 64 + k) := by
  unfold wordUnset
  split
  · next hmax =>
    subst hmax
    have hall : ∀ k ∈ List.range 64,
        (if (U64_MAX).testBit (63 - k) then none
          else some (p * 64 + k) : Option Nat) = none := by
      intro k hk
      have hk64 : k < 64 := List.mem_range.mp hk
      have : (U64_MAX).testBit (63 - k) = true := by
        rw [U64_MAX, Nat.testBit_two_pow_sub_one]
        simp only [decide_eq_true_eq]
        omega
      simp [this]
    rw [List.filterMap_congr hall]
    simp
  · have hrev : (List.range 64).reverse = (List.range 64).map fun k => 63 - k := by
      decide
    rw [hrev, List.filterMap_map]
    apply List.filterMap_congr
    intro k hk
    have hk64 : k < 64 := List.mem_range.mp hk
    simp only [Function.comp]
    have h1 : 63 - (63 - k) = k := by omega
    rw [h1]
    rcases hb : v.testBit (63 - k) with _ | _
    · rw [if_pos ((and_shiftLeft_one_eq_zero v (63 - k)).mpr hb)]
      simp [hb]
    · rw [if_neg]
      · simp [hb]
      · intro h0
        rw [(and_shiftLeft_one_eq_zero v (63 - k)).mp h0] at hb
        exact Bool.noConfusion hb

theorem collectGo_eq : ∀ (ws : List Nat) (p : Nat),
    collectGo p ws = (List.range (ws.length * 64)).filterMap fun j =>
      if (ws.getD (j / 64) 0).testBit (63 - j % 64) then none
      else some (p * 64 + j) := by
  intro ws
  induction ws with
  | nil => intro p; simp [collectGo]
  | cons w ws ih =>
    intro p
    have hlen : (w :: ws).length * 64 = 64 + ws.length * 64 := by
      simp [List.length_cons]
      ring
    have e1 : (List.filterMap
          (fun k => if w.testBit (63 - k) then none else some (p * 64 + k))
          (List.range 64))
        = List.filterMap
          (fun j => if ((w :: ws).getD (j / 64) 0).testBit (63 - j % 64)
            then none else some (p * 64 + j))
          (List.range 64) := by
      apply List.filterMap_congr
      intro k hk
      have hk64 : k < 64 := List.mem_range.mp hk
      have h1 : k / 64 = 0 := Nat.div_eq_of_lt hk64
      have h2 : k % 64 = k := Nat.mod_eq_of_lt hk64
      rw [h1, h2, List.getD_cons_zero]
    have e2 : (List.filterMap
          (fun j => if (ws.getD (j / 64) 0).testBit (63 - j % 64)
            then none else some ((p + 1) * 64 + j))
          (List.range (ws.length * 64)))
        = List.filterMap
          ((fun j => if ((w :: ws).getD (j / 64) 0).testBit (63 - j % 64)
            then none else some (p * 64 + j)) ∘ fun x => 64 + x)
          (List.range (ws.length * 64)) := by
      apply List.filterMap_congr
      intro k _
      simp only [Function.comp]
      have h1 : (64 + k) / 64 = k / 64 + 1 := by omega
      have h2 : (64 + k) % 64 = k % 64 := by omega
      have h3 : p * 64 + (64 + k) = (p + 1) * 64 + k := by ring
      rw [h1, h2, h3, List.getD_cons_succ]
    calc collectGo p (w :: ws)
        = (List.filterMap
            (fun k => if w.testBit (63 - k) then none else some (p * 64 + k))
            (List.range 64))
          ++ List.filterMap
            (fun j => if (ws.getD (j / 64) 0).testBit (63 - j % 64)
              then none else some ((p + 1) * 64 + j))
            (List.range (ws.length * 64)) := by
          rw [collectGo, wordUnset_eq, ih (p + 1)]
      _ = _ := by
          rw [e1, e2, hlen, List.range_add, List.filterMap_append,
            List.filterMap_map]

theorem filterMap_if_none {l : List Nat} {p : Nat → Bool} :
    (l.filterMap fun j => if p j then none else some j)
      = l.filter fun j => !p j := by
  induction l with
  | nil => rfl
  | cons x l ih =>
    rw [List.filterMap_cons, List.filter_cons]
    cases h : p x <;> simp [h, ih]

theorem len_le_bitVecLen_mul (len : Nat) : len ≤ bitVecLen len * 64 := by
  unfold bitVecLen
  rcases Nat.eq_zero_or_pos (len % 64) with h0 | h0
  · simp only [h0, Nat.min_self, Nat.min_eq_left (Nat.zero_le 1)]
    omega
  · rw [Nat.min_eq_right h0]
    omega

theorem div64_lt_bitVecLen {i len : Nat} (h : i < len) :
    i / 64 < bitVecLen len := by
  unfold bitVecLen
  rcases Nat.eq_zero_or_pos (len % 64) with h0 | h0
  · simp only [h0, Nat.min_eq_left (Nat.zero_le 1)]
    omega
  · rw [Nat.min_eq_right h0]
    omega

theorem shiftRight_ones {r : Nat} (h : r ≤ 64) :
    U64_MAX >>> r = 2 ^ (64 - r) - 1 := by
  rw [U64_MAX, Nat.shiftRight_eq_div_pow]
  have hsplit : (2 : Nat) ^ 64 = 2 ^ (64 - r) * 2 ^ r := by
    rw [← pow_add]
    congr 1
    omega
  have ha : 0 < (2 : Nat) ^ (64 - r) := Nat.pos_pow_of_pos _ (by norm_num)
  have hb : 0 < (2 : Nat) ^ r := Nat.pos_pow_of_pos _ (by norm_num)
  have hab : 2 ^ r ≤ 2 ^ (64 - r) * 2 ^ r := Nat.le_mul_of_pos_left _ ha
  have hsub : (2 ^ (64 - r) - 1) * 2 ^ r = 2 ^ (64 - r) * 2 ^ r - 2 ^ r :=
    Nat.sub_one_mul _ _
  have hkey : 2 ^ (64 - r) * 2 ^ r - 1
      = 2 ^ r * (2 ^ (64 - r) - 1) + (2 ^ r - 1) := by
    rw [mul_comm (2 ^ r) (2 ^ (64 - r) - 1), hsub]
    omega
  rw [hsplit, hkey, Nat.mul_add_div hb,
    Nat.div_eq_of_lt (by omega : 2 ^ r - 1 < 2 ^ r)]
  omega

theorem bitAt_new (len j : Nat) (hj : j < bitVecLen len * 64) :
    (BitArray.new len).bitAt j = decide (len ≤ j) := by
  unfold BitArray.new BitArray.fill_unused BitArray.bitAt
  simp only [List.length_replicate]
  rcases Nat.eq_zero_or_pos (len % 64) with h0 | h0
  · have hL : bitVecLen len = len / 64 := by
      unfold bitVecLen
      simp [h0]
    have hunused : bitVecLen len * 64 - len = 0 := by
      rw [hL]; omega
    rw [hunused]
    simp only [Nat.lt_irrefl, if_false]
    rw [List.getD_eq_getElem?_getD, List.getElem?_replicate]
    have hjlen : j < len := by rw [hL] at hj; omega
    split <;> simp [Nat.zero_testBit, Nat.not_le.mpr hjlen]
  · have hL : bitVecLen len = len / 64 + 1 := by
      unfold bitVecLen
      rw [Nat.min_eq_right h0]
    have hunused : bitVecLen len * 64 - len = 64 - len % 64 := by
      rw [hL]; omega
    rw [hunused, if_pos (by omega : 0 < 64 - len % 64)]
    have hexp : 64 - (64 - len % 64) = len % 64 := by omega
    have hm : U64_MAX >>> (64 - (64 - len % 64)) = 2 ^ (64 - len % 64) - 1 := by
      rw [hexp]
      exact shiftRight_ones (by omega)
    rw [hm]
    rw [List.getD_eq_getElem?_getD, List.getElem?_set]
    have hjdiv : j / 64 ≤ bitVecLen len - 1 := by omega
    rcases Nat.lt_or_ge (j / 64) (bitVecLen len - 1) with hlt | hge
    · rw [if_neg (by omega)]
      rw [List.getElem?_replicate, if_pos (by omega)]
      have hjlen : j < len := by
        have : j < (len / 64) * 64 := by rw [hL] at hlt; omega
        omega
      simp [Nat.zero_testBit, Nat.not_le.mpr hjlen]
    · have heq : bitVecLen len - 1 = j / 64 := by omega
      rw [if_pos heq, if_pos (by simp only [List.length_replicate, hL]; omega)]
      simp only [Option.getD_some]
      rw [Nat.testBit_two_pow_sub_one]
      have hj64 : j % 64 < 64 := Nat.mod_lt _ (by norm_num)
      have hr : len % 64 ≤ 63 := by omega
      have hjq : j / 64 = len / 64 := by rw [hL] at heq; omega
      rcases le_or_lt len j with hle | hgt
      · have h1 : 63 - j % 64 < 64 - len % 64 := by omega
        simp [h1, hle]
      · have h1 : ¬(63 - j % 64 < 64 - len % 64) := by omega
        simp [h1, Nat.not_le.mpr hgt]

theorem bitAt_set (a : BitArray) (i j : Nat) (hi : i / 64 < a.vec.length) :
    (a.set i).bitAt j = (a.bitAt j || decide (j = i)) := by
  simp only [BitArray.set, BitArray.bitAt]
  rw [List.getD_eq_getElem?_getD, List.getElem?_set]
  by_cases hij : i / 64 = j / 64
  · rw [if_pos hij, if_pos hi]
    simp only [Option.getD_some]
    rw [Nat.testBit_or, Nat.shiftLeft_eq, one_mul, Nat.testBit_two_pow, hij]
    congr 1
    have h1 : i % 64 < 64 := Nat.mod_lt _ (by norm_num)
    have h2 : j % 64 < 64 := Nat.mod_lt _ (by norm_num)
    rcases Nat.decEq j i with hne | heq
    · simp only [decide_eq_false hne]
      apply decide_eq_false
      intro heq'
      omega
    · subst heq
      simp
  · rw [if_neg hij, ← List.getD_eq_getElem?_getD a.vec]
    have hd : decide (j = i) = false := by
      apply decide_eq_false
      intro hji
      exact hij (by rw [hji])
    simp [hd]

theorem setAll_len : ∀ (S : List Nat) (a : BitArray),
    (a.setAll S).len = a.len ∧ (a.setAll S).vec.length = a.vec.length := by
  intro S
  induction S with
  | nil => intro a; exact ⟨rfl, rfl⟩
  | cons x S ih =>
    intro a
    have hstep : BitArray.setAll a (x :: S) = BitArray.setAll (a.set x) S := rfl
    rw [hstep]
    obtain ⟨h1, h2⟩ := ih (a.set x)
    refine ⟨h1.trans rfl, h2.trans ?_⟩
    simp [BitArray.set, List.length_set]

theorem bitAt_setAll : ∀ (S : List Nat) (a : BitArray),
    a.vec.length = bitVecLen a.len → (∀ i ∈ S, i < a.len) → ∀ j,
    (a.setAll S).bitAt j = (a.bitAt j || decide (j ∈ S)) := by
  intro S
  induction S with
  | nil =>
    intro a _ _ j
    simp [BitArray.setAll]
  | cons x S ih =>
    intro a hlen hS j
    have hx : x < a.len := hS x (by simp)
    have hxdiv : x / 64 < a.vec.length := by
      rw [hlen]
      exact div64_lt_bitVecLen hx
    have hset_len : (a.set x).vec.length = bitVecLen (a.set x).len := by
      unfold BitArray.set
      simpa [List.length_set] using hlen
    have hS' : ∀ i ∈ S, i < (a.set x).len := by
      intro i hiS
      exact hS i (by simp [hiS])
    have hstep : BitArray.setAll a (x :: S) = BitArray.setAll (a.set x) S := rfl
    rw [hstep, ih (a.set x) hset_len hS' j, bitAt_set a x j hxdiv]
    have hmem : decide (j ∈ x :: S) = (decide (j = x) || decide (j ∈ S)) := by
      simp [List.mem_cons]
    rw [hmem, Bool.or_assoc]

theorem new_len_field (len : Nat) : (BitArray.new len).len = len := by
  simp only [BitArray.new, BitArray.fill_unused]
  split <;> rfl

theorem parseLE_encLE : ∀ (k n : Nat) (rest : List Nat),
    parseLE k (encLE k n ++ rest) = some (n % 256 ^ k, rest) := by
  intro k
  induction k with
  | zero =>
    intro n rest
    simp [encLE, parseLE, Nat.mod_one]
  | succ k ih =>
    intro n rest
    have hmod : n % 256 ^ (k + 1) = n % 256 + 256 * (n / 256 % 256 ^ k) := by
      rw [pow_succ']
      exact Nat.mod_mul
    simp only [encLE, List.cons_append, List.append_eq, parseLE,
      ih (n / 256) rest, hmod]

theorem parseFixed_append (bs rest : List Nat) :
    parseFixed bs.length (bs ++ rest) = some (bs, rest) := by
  unfold parseFixed
  rw [if_pos (by simp), List.take_left, List.drop_left]

theorem parseBytes_encBytes (bs rest : List Nat) (h : bs.length < 2 ^ 64) :
    parseBytes (encBytes bs ++ rest) = some (bs, rest) := by
  have h64 : bs.length % 256 ^ 8 = bs.length := by
    apply Nat.mod_eq_of_lt
    calc bs.length < 2 ^ 64 := h
    _ = 256 ^ 8 := by norm_num
  unfold parseBytes encBytes
  rw [List.append_assoc, parseLE_encLE, h64]
  simp only [if_pos (by simp : bs.length ≤ (bs ++ rest).length)]
  rw [List.take_left, List.drop_left]

theorem parseAddr_encAddr (a : SockAddr) (rest : List Nat)
    (h : a.wfB = true) :
    parseAddr (encAddr a ++ rest) = some (a, rest) := by
  cases a with
  | v4 ip port =>
    simp only [SockAddr.wfB, Bool.and_eq_true, decide_eq_true_eq] at h
    obtain ⟨⟨hlen, _⟩, hport⟩ := h
    have hp : port % 256 ^ 2 = port := by
      apply Nat.mod_eq_of_lt
      calc port < 2 ^ 16 := hport
      _ = 256 ^ 2 := by norm_num
    have hfix := parseFixed_append ip (encLE 2 port ++ rest)
    rw [hlen] at hfix
    simp only [encAddr, parseAddr, List.append_assoc, List.append_eq,
      parseLE_encLE, Nat.zero_mod, hfix, hp]
  | v6 ip port =>
    simp only [SockAddr.wfB, Bool.and_eq_true, decide_eq_true_eq] at h
    obtain ⟨⟨hlen, _⟩, hport⟩ := h
    have hp : port % 256 ^ 2 = port := by
      apply Nat.mod_eq_of_lt
      calc port < 2 ^ 16 := hport
      _ = 256 ^ 2 := by norm_num
    have h1 : (1 : Nat) % 256 ^ 4 = 1 := by norm_num
    have hfix := parseFixed_append ip (encLE 2 port ++ rest)
    rw [hlen] at hfix
    simp only [encAddr, parseAddr, List.append_assoc, List.append_eq,
      parseLE_encLE, h1, hfix, hp]

theorem parseOptAddr_encOptAddr (a : Option SockAddr) (rest : List Nat)
    (h : ∀ x, a = some x → x.wfB = true) :
    parseOptAddr (encOptAddr a ++ rest) = some (a, rest) := by
  cases a with
  | none => rfl
  | some x =>
    unfold encOptAddr parseOptAddr
    rw [List.cons_append]
    simp [parseAddr_encAddr x rest (h x rfl)]

theorem parseRMsg_enc (m : RMsg) (rest : List Nat) (h : m.wfB = true) :
    parseRMsg (m.enc ++ rest) = some (m, rest) := by
  cases m with
  | query =>
    simp only [RMsg.enc, parseRMsg, parseLE_encLE, Nat.zero_mod]
  | address a =>
    have ht : (1 : Nat) % 256 ^ 4 = 1 := by norm_num
    simp only [RMsg.enc, parseRMsg, List.append_assoc, parseLE_encLE, ht,
      parseAddr_encAddr a rest h, Option.map_some']
  | register id =>
    simp only [RMsg.wfB, Bool.and_eq_true, decide_eq_true_eq] at h
    have ht : (2 : Nat) % 256 ^ 4 = 2 := by norm_num
    simp only [RMsg.enc, parseRMsg, List.append_assoc, parseLE_encLE, ht,
      parseBytes_encBytes id rest h.1, Option.map_some']
  | registerAck =>
    have ht : (3 : Nat) % 256 ^ 4 = 3 := by norm_num
    simp only [RMsg.enc, parseRMsg, parseLE_encLE, ht]
  | lookup pid =>
    simp only [RMsg.wfB, Bool.and_eq_true, decide_eq_true_eq] at h
    have ht : (4 : Nat) % 256 ^ 4 = 4 := by norm_num
    simp only [RMsg.enc, parseRMsg, List.append_assoc, parseLE_encLE, ht,
      parseBytes_encBytes pid rest h.1, Option.map_some']
  | peer a =>
    have ht : (5 : Nat) % 256 ^ 4 = 5 := by norm_num
    have ha : ∀ x, a = some x → x.wfB = true := by
      intro x hx
      subst hx
      simpa [RMsg.wfB] using h
    simp only [RMsg.enc, parseRMsg, List.append_assoc, parseLE_encLE, ht,
      parseOptAddr_encOptAddr a rest ha, Option.map_some']
  | request a =>
    have ht : (6 : Nat) % 256 ^ 4 = 6 := by norm_num
    simp only [RMsg.enc, parseRMsg, List.append_assoc, parseLE_encLE, ht,
      parseAddr_encAddr a rest h, Option.map_some']
  | response a =>
    have ht : (7 : Nat) % 256 ^ 4 = 7 := by norm_num
    simp only [RMsg.enc, parseRMsg, List.append_assoc, parseLE_encLE, ht,
      parseAddr_encAddr a rest h, Option.map_some']
  | responseAck =>
    have ht : (8 : Nat) % 256 ^ 4 = 8 := by norm_num
    simp only [RMsg.enc, parseRMsg, parseLE_encLE, ht]
  | hello =>
    have ht : (9 : Nat) % 256 ^ 4 = 9 := by norm_num
    simp only [RMsg.enc, parseRMsg, parseLE_encLE, ht]
  | helloAck =>
    have ht : (10 : Nat) % 256 ^ 4 = 10 := by norm_num
    simp only [RMsg.enc, parseRMsg, parseLE_encLE, ht]

theorem parseLE_suffix : ∀ (k : Nat) (d : List Nat) (n : Nat)
    (rest : List Nat), parseLE k d = some (n, rest) →
    ∃ pre, d = pre ++ rest := by
  intro k
  induction k with
  | zero =>
    intro d n rest h
    rw [parseLE] at h
    cases h
    exact ⟨[], rfl⟩
  | succ k ih =>
    intro d n rest h
    cases d with
    | nil => rw [parseLE] at h; cases h
    | cons b bs =>
      rw [parseLE] at h
      rcases hp : parseLE k bs with _ | p
      · rw [hp] at h; cases h
      · rw [hp] at h
        cases h
        obtain ⟨pre, hpre⟩ := ih bs p.1 p.2 (by rw [hp])
        exact ⟨b :: pre, by rw [List.cons_append, ← hpre]⟩

theorem parseFixed_suffix (k : Nat) (d bs rest : List Nat)
    (h : parseFixed k d = some (bs, rest)) : ∃ pre, d = pre ++ rest := by
  unfold parseFixed at h
  by_cases hk : k ≤ d.length
  · rw [if_pos hk] at h
    cases h
    exact ⟨d.take k, (List.take_append_drop k d).symm⟩
  · rw [if_neg hk] at h
    cases h

theorem parseBytes_suffix (d bs rest : List Nat)
    (h : parseBytes d = some (bs, rest)) : ∃ pre, d = pre ++ rest := by
  unfold parseBytes at h
  rcases hp : parseLE 8 d with _ | p
  · rw [hp] at h; cases h
  · rw [hp] at h
    simp only at h
    by_cases hk : p.1 ≤ p.2.length
    · rw [if_pos hk] at h
      cases h
      obtain ⟨p1, h1⟩ := parseLE_suffix 8 d p.1 p.2 (by rw [hp])
      refine ⟨p1 ++ p.2.take p.1, ?_⟩
      rw [h1, List.append_assoc, List.take_append_drop]
    · rw [if_neg hk] at h
      cases h

theorem parseAddr_suffix (d : List Nat) (a : SockAddr) (rest : List Nat)
    (h : parseAddr d = some (a, rest)) : ∃ pre, d = pre ++ rest := by
  unfold parseAddr at h
  repeat' split at h
  all_goals cases h
  all_goals
    rename_i x1 r1 he1 x2 ip2 r2 he2 x3 n3 he3
    obtain ⟨p1, h1⟩ := parseLE_suffix 4 d _ _ he1
    obtain ⟨p2, h2⟩ := parseFixed_suffix _ _ _ _ he2
    obtain ⟨p3, h3⟩ := parseLE_suffix 2 _ _ _ he3
    refine ⟨p1 ++ (p2 ++ p3), ?_⟩
    rw [h1, h2, h3]
    simp [List.append_assoc]

theorem parseOptAddr_suffix (d : List Nat) (a : Option SockAddr)
    (rest : List Nat) (h : parseOptAddr d = some (a, rest)) :
    ∃ pre, d = pre ++ rest := by
  unfold parseOptAddr at h
  split at h
  · cases h
    exact ⟨[0], rfl⟩
  · rcases hp : parseAddr _ with _ | p
    · rw [hp] at h; cases h
    · rw [hp] at h
      cases h
      next b rest2 =>
        obtain ⟨pre, hpre⟩ := parseAddr_suffix _ _ _ hp
        exact ⟨1 :: pre, by rw [List.cons_append, ← hpre]⟩
  · cases h

theorem detectStep_inr {s1 s2 : SockAddr} {st : DetectState}
    {m : RMsg × SockAddr} {v : DetectOut}
    (hstep : detectStep s1 s2 st m = Sum.inr v) :
    ∃ a1 a2, (st.a1 = some a1 ∨ m = (RMsg.address a1, s1)) ∧
      (st.a2 = some a2 ∨ m = (RMsg.address a2, s2)) ∧
      (v = DetectOut.ok ↔ a1 = a2) := by
  obtain ⟨msg, src⟩ := m
  cases msg <;> simp only [detectStep] at hstep <;>
    try exact Sum.noConfusion hstep
  next a =>
  split_ifs at hstep with hs1 hs2
  · unfold detectCheck at hstep
    rcases h2v : st.a2 with _ | y
    · rw [h2v] at hstep
      exact Sum.noConfusion hstep
    · rw [h2v] at hstep
      have hv := Sum.inr.inj hstep
      refine ⟨a, y, Or.inr (by rw [hs1]), Or.inl rfl, ?_⟩
      by_cases hay : a = y <;> simp [hay] at hv <;> simp [← hv, hay]
  · unfold detectCheck at hstep
    rcases h1v : st.a1 with _ | x
    · rw [h1v] at hstep
      exact Sum.noConfusion hstep
    · rw [h1v] at hstep
      have hv := Sum.inr.inj hstep
      refine ⟨x, a, Or.inl rfl, Or.inr (by rw [hs2]), ?_⟩
      by_cases hay : x = a <;> simp [hay] at hv <;> simp [← hv, hay]

theorem detectStep_inl_anal {s1 s2 : SockAddr} {st st' : DetectState}
    {m : RMsg × SockAddr} (hne : s1 ≠ s2)
    (hboth : ¬(st.a1.isSome = true ∧ st.a2.isSome = true))
    (hstep : detectStep s1 s2 st m = Sum.inl st') :
    (st'.a1.isSome = true ∨ st'.a1 = st.a1) ∧
    (st'.a2.isSome = true ∨ st'.a2 = st.a2) ∧
    ¬(st'.a1.isSome = true ∧ st'.a2.isSome = true) ∧
    (∀ a, m = (RMsg.address a, s1) → st'.a1 = some a) ∧
    (∀ a, m = (RMsg.address a, s2) → st'.a2 = some a) := by
  obtain ⟨msg, src⟩ := m
  cases msg <;> simp only [detectStep] at hstep <;>
    first
    | (cases Sum.inl.inj hstep
       refine ⟨Or.inr rfl, Or.inr rfl, hboth, ?_, ?_⟩ <;>
         (intro a ha; cases ha))
    | skip
  next a =>
  split_ifs at hstep with hs1 hs2
  · subst hs1
    unfold detectCheck at hstep
    rcases h2v : st.a2 with _ | y
    · rw [h2v] at hstep
      cases Sum.inl.inj hstep
      refine ⟨Or.inl rfl, Or.inr rfl, ?_, ?_, ?_⟩
      · intro hc
        simp at hc
      · intro a' ha'
        cases ha'
        rfl
      · intro a' ha'
        rw [Prod.mk.injEq] at ha'
        exact absurd ha'.2 hne
    · rw [h2v] at hstep
      exact Sum.noConfusion hstep
  · subst hs2
    unfold detectCheck at hstep
    rcases h1v : st.a1 with _ | x
    · rw [h1v] at hstep
      cases Sum.inl.inj hstep
      refine ⟨Or.inr rfl, Or.inl rfl, ?_, ?_, ?_⟩
      · intro hc
        simp at hc
      · intro a' ha'
        rw [Prod.mk.injEq] at ha'
        exact absurd ha'.2 hs1
      · intro a' ha'
        cases ha'
        rfl
    · rw [h1v] at hstep
      exact Sum.noConfusion hstep
  · cases Sum.inl.inj hstep
    refine ⟨Or.inr rfl, Or.inr rfl, hboth, ?_, ?_⟩
    · intro a' ha'
      rw [Prod.mk.injEq] at ha'
      exact absurd ha'.2 hs1
    · intro a' ha'
      rw [Prod.mk.injEq] at ha'
      exact absurd ha'.2 hs2

theorem detect_verdict (s1 s2 : SockAddr) :
    ∀ (ms : List (RMsg × SockAddr)) (st : DetectState) (v : DetectOut),
    resolveRun (detectStep s1 s2) st ms = Sum.inr v →
    ∃ a1 a2, (st.a1 = some a1 ∨ (RMsg.address a1, s1) ∈ ms) ∧
      (st.a2 = some a2 ∨ (RMsg.address a2, s2) ∈ ms) ∧
      (v = DetectOut.ok ↔ a1 = a2) := by
  intro ms
  induction ms with
  | nil =>
    intro st v h
    rw [resolveRun] at h
    cases h
  | cons m ms ih =>
    intro st v h
    rw [resolveRun] at h
    rcases hstep : detectStep s1 s2 st m with st' | w
    · rw [hstep] at h
      obtain ⟨a1, a2, h1, h2, hiff⟩ := ih st' v h
      have hanal : (∀ a, st'.a1 = some a →
            st.a1 = some a ∨ m = (RMsg.address a, s1)) ∧
          (∀ a, st'.a2 = some a →
            st.a2 = some a ∨ m = (RMsg.address a, s2)) := by
        clear h1 h2 hiff h
        obtain ⟨msg, src⟩ := m
        cases msg <;> simp only [detectStep] at hstep <;>
          first
          | (cases Sum.inl.inj hstep
             exact ⟨fun a ha => Or.inl ha, fun a ha => Or.inl ha⟩)
          | skip
        next a =>
        split_ifs at hstep with hs1 hs2
        · subst hs1
          unfold detectCheck at hstep
          rcases h2v : st.a2 with _ | y <;> rw [h2v] at hstep
          · cases Sum.inl.inj hstep
            refine ⟨fun a' ha' => Or.inr ?_, fun a' ha' => Or.inl ha'⟩
            cases ha'
            rfl
          · exact Sum.noConfusion hstep
        · subst hs2
          unfold detectCheck at hstep
          rcases h1v : st.a1 with _ | x <;> rw [h1v] at hstep
          · cases Sum.inl.inj hstep
            refine ⟨fun a' ha' => Or.inl ha', fun a' ha' => Or.inr ?_⟩
            cases ha'
            rfl
          · exact Sum.noConfusion hstep
        · cases Sum.inl.inj hstep
          exact ⟨fun a ha => Or.inl ha, fun a ha => Or.inl ha⟩
      refine ⟨a1, a2, ?_, ?_, hiff⟩
      · rcases h1 with h1 | h1
        · rcases hanal.1 a1 h1 with hh | hh
          · exact Or.inl hh
          · exact Or.inr (by rw [← hh]; exact List.mem_cons_self _ _)
        · exact Or.inr (List.mem_cons_of_mem _ h1)
      · rcases h2 with h2 | h2
        · rcases hanal.2 a2 h2 with hh | hh
          · exact Or.inl hh
          · exact Or.inr (by rw [← hh]; exact List.mem_cons_self _ _)
        · exact Or.inr (List.mem_cons_of_mem _ h2)
    · rw [hstep] at h
      cases h
      obtain ⟨a1, a2, h1, h2, hiff⟩ := detectStep_inr hstep
      refine ⟨a1, a2, ?_, ?_, hiff⟩
      · rcases h1 with h1 | h1
        · exact Or.inl h1
        · exact Or.inr (by rw [← h1]; exact List.mem_cons_self _ _)
      · rcases h2 with h2 | h2
        · exact Or.inl h2
        · exact Or.inr (by rw [← h2]; exact List.mem_cons_self _ _)

theorem detect_resolves (s1 s2 : SockAddr) (hne : s1 ≠ s2) :
    ∀ (ms : List (RMsg × SockAddr)) (st : DetectState),
    (st.a1.isSome = true ∨ ∃ a, (RMsg.address a, s1) ∈ ms) →
    (st.a2.isSome = true ∨ ∃ a, (RMsg.address a, s2) ∈ ms) →
    ¬(st.a1.isSome = true ∧ st.a2.isSome = true) →
    ∃ v, resolveRun (detectStep s1 s2) st ms = Sum.inr v := by
  intro ms
  induction ms with
  | nil =>
    intro st h1 h2 hboth
    rcases h1 with h1 | ⟨a, ha⟩
    · rcases h2 with h2 | ⟨a, ha⟩
      · exact absurd ⟨h1, h2⟩ hboth
      · simp at ha
    · simp at ha
  | cons m ms ih =>
    intro st h1 h2 hboth
    rcases hstep : detectStep s1 s2 st m with st' | v
    · obtain ⟨hA, hB, hC, hD, hE⟩ := detectStep_inl_anal hne hboth hstep
      have h1' : st'.a1.isSome = true ∨ ∃ a, (RMsg.address a, s1) ∈ ms := by
        rcases h1 with h1 | ⟨a, ha⟩
        · rcases hA with hA | hA
          · exact Or.inl hA
          · exact Or.inl (by rw [hA]; exact h1)
        · rcases List.mem_cons.mp ha with ha | ha
          · exact Or.inl (by rw [hD a ha.symm]; rfl)
          · exact Or.inr ⟨a, ha⟩
      have h2' : st'.a2.isSome = true ∨ ∃ a, (RMsg.address a, s2) ∈ ms := by
        rcases h2 with h2 | ⟨a, ha⟩
        · rcases hB with hB | hB
          · exact Or.inl hB
          · exact Or.inl (by rw [hB]; exact h2)
        · rcases List.mem_cons.mp ha with ha | ha
          · exact Or.inl (by rw [hE a ha.symm]; rfl)
          · exact Or.inr ⟨a, ha⟩
      obtain ⟨v, hv⟩ := ih st' h1' h2' hC
      refine ⟨v, ?_⟩
      rw [resolveRun, hstep]
      exact hv
    · refine ⟨v, ?_⟩
      rw [resolveRun, hstep]

theorem peerGc_eq_filter (peers : List PeerEntry) (now : Nat)
    (hids : peers.Pairwise fun e1 e2 => e1.id ≠ e2.id) :
    peerGc peers now
      = peers.filter fun e => decide (now - e.lastSeen ≤ GC_WINDOW_SECS) := by
  unfold peerGc
  apply List.filter_congr
  intro e he
  rw [decide_eq_decide]
  constructor
  · intro hnotin
    by_contra hstale
    apply hnotin
    simp only [List.mem_map]
    refine ⟨e, ?_, rfl⟩
    rw [List.mem_filter]
    exact ⟨he, by simp; omega⟩
  · intro hfresh
    intro hin
    simp only [List.mem_map] at hin
    obtain ⟨e', he', hid⟩ := hin
    rw [List.mem_filter] at he'
    obtain ⟨he'mem, he'stale⟩ := he'
    simp only [decide_eq_true_eq] at he'stale
    by_cases heq : e' = e
    · subst heq
      omega
    · have hsym : Symmetric fun e1 e2 : PeerEntry => e1.id ≠ e2.id := by
        intro a b hab
        exact fun h => hab h.symm
      exact absurd hid (hids.forall hsym he'mem he heq)

theorem runDetect_resolved (s1 s2 : SockAddr)
    (ms : List (RMsg × SockAddr)) (v : DetectOut) :
    (runDetect s1 s2 ms).1 = POut.resolved v ↔
    resolveRun (detectStep s1 s2) ⟨none, none⟩ ms = Sum.inr v := by
  unfold runDetect perform
  rcases hr : resolveRun (detectStep s1 s2) ⟨none, none⟩ ms with st' | w <;>
    simp [performGo, resolveRun, DetectOp, RETRY_COUNT, hr]

set_option maxHeartbeats 1600000 in
theorem parseRMsg_suffix (d : List Nat) (m : RMsg) (rest : List Nat)
    (h : parseRMsg d = some (m, rest)) : ∃ pre, d = pre ++ rest := by
  unfold parseRMsg at h
  repeat' split at h
  all_goals try cases h
  all_goals try (rename_i he; exact parseLE_suffix 4 d _ _ he)
  all_goals
    rename_i he1
    rw [Option.map_eq_some'] at h
    obtain ⟨p, hp, hf⟩ := h
    cases hf
    obtain ⟨p1, h1⟩ := parseLE_suffix 4 d _ _ he1
    first
      | (obtain ⟨p2, h2⟩ := parseAddr_suffix _ _ _ hp
         refine ⟨p1 ++ p2, ?_⟩
         rw [h1, h2, List.append_assoc])
      | (obtain ⟨p2, h2⟩ := parseBytes_suffix _ _ _ hp
         refine ⟨p1 ++ p2, ?_⟩
         rw [h1, h2, List.append_assoc])
      | (obtain ⟨p2, h2⟩ := parseOptAddr_suffix _ _ _ hp
         refine ⟨p1 ++ p2, ?_⟩
         rw [h1, h2, List.append_assoc])

end Punch

/-- C3: for every Operation, `perform` first calls `poll` once, then
repeatedly races `resolve` against the 150 ms timer; a completed `resolve`
returns its value; each timer expiry with fewer than `RETRY_COUNT = 3`
retries used re-calls `poll`, so `poll` is called at most 4 times in total;
on exhaustion `perform` returns `result()` if it is `Some`, otherwise a
timed-out error.  Stated as: `perform` equals the four-round unrolling
`performSpec` written from the specification's narrative, and the total
number of `poll` calls is at most 4. -/
theorem perform_meets_retry_contract {σ M T : Type} (op : Punch.Op σ M T)
    (s : σ) (rounds : List (List M)) :
    Punch.perform op s rounds = Punch.performSpec op s rounds ∧
      (Punch.perform op s rounds).2 ≤ 4 := by
  unfold Punch.perform Punch.performSpec Punch.RETRY_COUNT
  simp only [Punch.performGo]
  repeat' split
  all_goals simp_all

/-- C1 (counterexample): the claim that the sender never resends on a
partially accumulated list is false.  With block 0, a single
`BlockMissingChunk{block 0, chunk [7], count 2}` arriving in the first round
and nothing afterwards, the retry budget expires with the partial
accumulation `[7]` (length 1 ≠ count 2); `result()` hands that partial list
to `perform`, and `send_block` resends it. -/
theorem sendBlockComplete_partial_resend_cex :
    (Punch.perform (Punch.SBC 0) none
        [[Punch.TMsg.blockMissingChunk 0 [7] 2]]).1 =
      Punch.POut.fromResult [7] ∧
    Punch.sendBlockResends
        (Punch.perform (Punch.SBC 0) none
          [[Punch.TMsg.blockMissingChunk 0 [7] 2]]).1 = true ∧
    ([7] : List Nat).length ≠ 2 := by
  decide

/-- C1 (amended): in the sender's block-complete handshake, a resend list
delivered by a completed `resolve` was accumulated from `BlockMissingChunk`
messages for that block until its length equals their `count` field; but
when the retry budget expires with a partial accumulation, `result()` yields
that partial list, every element of which came from a `BlockMissingChunk`
message for the block, and the sender does resend it when it is nonempty. -/
theorem sendBlockComplete_accumulates (b : Nat)
    (rounds : List (List Punch.TMsg)) :
    (∀ v, (Punch.perform (Punch.SBC b) none rounds).1 = Punch.POut.resolved v →
      v ≠ [] →
      ∃ ch cnt, Punch.TMsg.blockMissingChunk b ch cnt ∈ rounds.flatten ∧
        v.length = cnt) ∧
    (∀ v, (Punch.perform (Punch.SBC b) none rounds).1 =
        Punch.POut.fromResult v →
      (∀ x ∈ v, Punch.chunkFrom b rounds.flatten x) ∧
      Punch.sendBlockResends (Punch.perform (Punch.SBC b) none rounds).1 =
        !v.isEmpty) := by
  constructor
  · intro v h hv
    exact Punch.performGo_sbc_resolved Punch.RETRY_COUNT _ rounds v h hv
  · intro v h
    refine ⟨?_, ?_⟩
    · intro x hx
      rcases Punch.performGo_sbc_fromResult Punch.RETRY_COUNT _ rounds v h x hx
        with h1 | h2
      · simp [Punch.SBC] at h1
      · exact h2
    · rw [h]
      rfl

/-- C1 (witness): with block 9 and a single round carrying
`BlockMissingChunk{9, [3, 4], 2}`, the resolve path returns `[3, 4]` and the
amended theorem yields the matching message with `count = 2`. -/
theorem sendBlockComplete_accumulates_witness :
    ∃ ch cnt,
      Punch.TMsg.blockMissingChunk 9 ch cnt ∈
        [[Punch.TMsg.blockMissingChunk 9 [3, 4] 2]].flatten ∧
      ([3, 4] : List Nat).length = cnt :=
  (sendBlockComplete_accumulates 9
      [[Punch.TMsg.blockMissingChunk 9 [3, 4] 2]]).1 [3, 4] (by decide)
    (by decide)

/-- C4: for every `len` and every set `S` of indices contained in
`[0, len)`, after `BitArray::reset(len)` (which coincides with
`BitArray::new(len)`) followed by `set(i)` for the `i` in `S`,
`collect_unset()` returns exactly the indices of `[0, len)` not in `S` in
ascending order; the pre-filled unused high bits of the last word never
appear in the result, since every returned index is below `len`. -/
theorem bitArray_collect_unset_complement (len : Nat) (S : List Nat)
    (hS : ∀ i ∈ S, i < len) :
    ((Punch.BitArray.new len).setAll S).collect_unset
        = (List.range len).filter (fun j => decide (j ∉ S)) ∧
      ∀ a : Punch.BitArray, a.reset len = Punch.BitArray.new len := by
  refine ⟨?_, fun a => rfl⟩
  have hnew_len : (Punch.BitArray.new len).vec.length = Punch.bitVecLen len := by
    simp only [Punch.BitArray.new, Punch.BitArray.fill_unused]
    split <;> simp [List.length_set, List.length_replicate]
  have hAvec_len :
      ((Punch.BitArray.new len).setAll S).vec.length = Punch.bitVecLen len :=
    ((Punch.setAll_len S (Punch.BitArray.new len)).2).trans hnew_len
  have hnew_inv : (Punch.BitArray.new len).vec.length
      = Punch.bitVecLen (Punch.BitArray.new len).len := by
    rw [Punch.new_len_field]
    exact hnew_len
  have hS' : ∀ i ∈ S, i < (Punch.BitArray.new len).len := by
    intro i hi
    rw [Punch.new_len_field]
    exact hS i hi
  have hA_bit : ∀ j, j < Punch.bitVecLen len * 64 →
      Punch.BitArray.bitAt ((Punch.BitArray.new len).setAll S) j
        = (decide (len ≤ j) || decide (j ∈ S)) := by
    intro j hj
    rw [Punch.bitAt_setAll S (Punch.BitArray.new len) hnew_inv hS' j,
      Punch.bitAt_new len j hj]
  have hcoll : ((Punch.BitArray.new len).setAll S).collect_unset
      = (List.range (Punch.bitVecLen len * 64)).filterMap
          (fun j => if (decide (len ≤ j) || decide (j ∈ S)) then none
            else some j) := by
    rw [Punch.BitArray.collect_unset, Punch.collectGo_eq, hAvec_len]
    apply List.filterMap_congr
    intro j hj
    have hj' := List.mem_range.mp hj
    have hb : (((Punch.BitArray.new len).setAll S).vec.getD (j / 64) 0).testBit
        (63 - j % 64) = (decide (len ≤ j) || decide (j ∈ S)) := hA_bit j hj'
    rw [hb]
    simp
  rw [hcoll, Punch.filterMap_if_none]
  have hsplit : Punch.bitVecLen len * 64
      = len + (Punch.bitVecLen len * 64 - len) :=
    (Nat.add_sub_cancel' (Punch.len_le_bitVecLen_mul len)).symm
  rw [hsplit, List.range_add, List.filter_append]
  have h2 : (List.filter (fun j => !(decide (len ≤ j) || decide (j ∈ S)))
      (List.map (fun x => len + x)
        (List.range (Punch.bitVecLen len * 64 - len)))) = [] := by
    rw [List.filter_map]
    have hnil : (List.range (Punch.bitVecLen len * 64 - len)).filter
        ((fun j => !(decide (len ≤ j) || decide (j ∈ S))) ∘ fun x => len + x)
          = [] := by
      rw [List.filter_eq_nil_iff]
      intro k _
      simp
    rw [hnil]
    rfl
  rw [h2, List.append_nil]
  apply List.filter_congr
  intro j hj
  have hjlen := List.mem_range.mp hj
  have h3 : decide (len ≤ j) = false := decide_eq_false (Nat.not_le.mpr hjlen)
  simp [h3]

/-- C4 (witness): instantiated at `len = 5`, `S = [1, 3]`; the filter side
evaluates to `[0, 2, 4]`. -/
theorem bitArray_collect_unset_complement_witness :
    ((Punch.BitArray.new 5).setAll [1, 3]).collect_unset
        = (List.range 5).filter (fun j => decide (j ∉ [1, 3])) ∧
      ∀ a : Punch.BitArray, a.reset 5 = Punch.BitArray.new 5 :=
  bitArray_collect_unset_complement 5 [1, 3] (by decide)

/-- C7 (counterexample): the claimed identity fails once the block count
overflows the `as u32` cast.  For `size = 2 ^ 32 + 1` and `B = 1` the size
is a multiple of `B`, the source computes `q = 2 ^ 32 + 1`, truncates it to
`1` and returns `(0, 1)` instead of the claimed `(size / B - 1, B)
= (2 ^ 32, 1)`, and `(last + 1) * B - (B - last_size) = 1 ≠ size`. -/
theorem last_block_index_size_cast_cex :
    Punch.last_block_index_size (2 ^ 32 + 1) 1 = (0, 1) ∧
    ¬(((Punch.last_block_index_size (2 ^ 32 + 1) 1).1 + 1) * 1
        - (1 - (Punch.last_block_index_size (2 ^ 32 + 1) 1).2)
      = 2 ^ 32 + 1) ∧
    (Punch.last_block_index_size (2 ^ 32 + 1) 1).1 ≠ (2 ^ 32 + 1) / 1 - 1 := by
  decide

/-- C7 (amended): for every file size and block size with
`0 < size`, `0 < B < 2 ^ 32` (`B` is a `u32`) and `size < 2 ^ 32 * B` (the
block count fits in `u32`, as in every real transfer),
`last_block_index_size(size, B)` returns `(last, last_size)` with
`0 < last_size ≤ B` and `(last + 1) * B - (B - last_size) = size`; when `B`
divides `size` it returns `(size / B - 1, B)`, otherwise
`(size / B, size % B)`. -/
theorem last_block_index_size_spec (fileSize blockSize : Nat)
    (h0 : 0 < fileSize) (hb : 0 < blockSize) (hbu : blockSize < 2 ^ 32)
    (hsz : fileSize < 2 ^ 32 * blockSize) :
    0 < (Punch.last_block_index_size fileSize blockSize).2 ∧
    (Punch.last_block_index_size fileSize blockSize).2 ≤ blockSize ∧
    ((Punch.last_block_index_size fileSize blockSize).1 + 1) * blockSize
        - (blockSize - (Punch.last_block_index_size fileSize blockSize).2)
      = fileSize ∧
    (fileSize % blockSize = 0 →
      Punch.last_block_index_size fileSize blockSize
        = (fileSize / blockSize - 1, blockSize)) ∧
    (fileSize % blockSize ≠ 0 →
      Punch.last_block_index_size fileSize blockSize
        = (fileSize / blockSize, fileSize % blockSize)) := by
  have hdm := Nat.div_add_mod fileSize blockSize
  have hqlt : fileSize / blockSize < 2 ^ 32 :=
    (Nat.div_lt_iff_lt_mul hb).mpr hsz
  have hrlt : fileSize % blockSize < blockSize := Nat.mod_lt _ hb
  unfold Punch.last_block_index_size Punch.U32_MOD
  rcases Nat.eq_zero_or_pos (fileSize % blockSize) with hr0 | hrpos
  · rw [if_pos hr0]
    have hq1 : 1 ≤ fileSize / blockSize := by
      rcases Nat.eq_zero_or_pos (fileSize / blockSize) with h | h
      · rw [h, Nat.mul_zero] at hdm; omega
      · exact h
    have hfst : (fileSize / blockSize % 2 ^ 32 + (2 ^ 32 - 1)) % 2 ^ 32
        = fileSize / blockSize - 1 := by
      rw [Nat.mod_eq_of_lt hqlt]
      have : fileSize / blockSize + (2 ^ 32 - 1)
          = (fileSize / blockSize - 1) + 1 * 2 ^ 32 := by omega
      rw [this, Nat.add_mul_mod_self_right, Nat.mod_eq_of_lt (by omega)]
    rw [hfst]
    have hexp : (fileSize / blockSize - 1 + 1) * blockSize
        = blockSize * (fileSize / blockSize) := by
      rw [Nat.sub_add_cancel hq1]
      ring
    refine ⟨hb, le_refl _, ?_, fun _ => rfl, fun hc => absurd hr0 hc⟩
    rw [hexp]
    omega
  · rw [if_neg (by omega)]
    have hfst : fileSize / blockSize % 2 ^ 32 = fileSize / blockSize :=
      Nat.mod_eq_of_lt hqlt
    have hsnd : fileSize % blockSize % 2 ^ 32 = fileSize % blockSize :=
      Nat.mod_eq_of_lt (by omega)
    rw [hfst, hsnd]
    have hexp : (fileSize / blockSize + 1) * blockSize
        = blockSize * (fileSize / blockSize) + blockSize := by
      ring
    refine ⟨hrpos, le_of_lt hrlt, ?_, fun hc => by omega, fun _ => rfl⟩
    rw [hexp]
    omega

/-- C7 (witness): at `size = 10`, `B = 4` the amended theorem applies and
the result is `(2, 2)` with `(2 + 1) * 4 - (4 - 2) = 10`. -/
theorem last_block_index_size_spec_witness :
    0 < (Punch.last_block_index_size 10 4).2 ∧
    (Punch.last_block_index_size 10 4).2 ≤ 4 ∧
    ((Punch.last_block_index_size 10 4).1 + 1) * 4
        - (4 - (Punch.last_block_index_size 10 4).2) = 10 ∧
    (10 % 4 = 0 → Punch.last_block_index_size 10 4 = (10 / 4 - 1, 4)) ∧
    (10 % 4 ≠ 0 → Punch.last_block_index_size 10 4 = (10 / 4, 10 % 4)) :=
  last_block_index_size_spec 10 4 (by norm_num) (by norm_num) (by norm_num)
    (by norm_num)

/-- C5 (counterexample): the claim, quantified over every target file
size, fails in two independent ways.  First, for target size 0 with
`resume = true` and an existing `.part` sidecar of equal size 0,
`BlockWriter::new` takes the `file_size == 0` early return (`block.rs`
lines 147-150): it creates the final file directly and returns no writer,
without renaming the sidecar as the claim's equal-size branch requires.
Second, the `next_block as u32` cast (`block.rs` line 162) truncates the
sidecar block count: for target `2 ^ 32 + 1`, block size 1 and sidecar
size `2 ^ 32`, the stored `start_block` is `0`, not the claimed
`floor(partSize / block_size) = 2 ^ 32`, and the file position `2 ^ 32`
(computed before the cast) differs from `start_block * block_size = 0`. -/
theorem blockWriterNew_zero_size_cex :
    (Punch.blockWriterNew 0 1048576 true true 0 = Punch.WriterInit.emptyFile ∧
      Punch.WriterInit.emptyFile ≠ Punch.WriterInit.complete) ∧
    (Punch.blockWriterNew (2 ^ 32 + 1) 1 true true (2 ^ 32)
        = Punch.WriterInit.writer 0 (2 ^ 32) false ∧
      (0 : Nat) ≠ 2 ^ 32 / 1 ∧
      2 ^ 32 ≠ 0 * 1) := by
  decide

/-- C5 (amended): for every target file size greater than 0 (with a
positive block size and a sidecar block count that fits in `u32`), when
`BlockWriter::new` is called with `resume` true and a `.part` sidecar
exists: if the sidecar's size is less than the target, the writer starts at
`start_block = partSize / block_size` with the file positioned at
`start_block * block_size` and without truncation; if the sizes are equal,
the sidecar is renamed to the final path and no writer is returned; if the
sidecar is larger, it is truncated and the transfer restarts at block 0. -/
theorem blockWriterNew_resume_spec (fileSize blockSize partSize : Nat)
    (h0 : 0 < fileSize) (hq : partSize / blockSize < 2 ^ 32) :
    (partSize < fileSize →
      Punch.blockWriterNew fileSize blockSize true true partSize
        = Punch.WriterInit.writer (partSize / blockSize)
            (partSize / blockSize * blockSize) false) ∧
    (partSize = fileSize →
      Punch.blockWriterNew fileSize blockSize true true partSize
        = Punch.WriterInit.complete) ∧
    (fileSize < partSize →
      Punch.blockWriterNew fileSize blockSize true true partSize
        = Punch.WriterInit.writer 0 0 true) := by
  unfold Punch.blockWriterNew Punch.U32_MOD
  rw [if_neg (by omega)]
  have hcond : (true && true) = true := rfl
  rw [if_pos hcond]
  refine ⟨fun hlt => ?_, fun heq => ?_, fun hgt => ?_⟩
  · rw [if_pos hlt, Nat.mod_eq_of_lt hq]
  · rw [if_neg (by omega), if_pos heq]
  · rw [if_neg (by omega), if_neg (by omega)]

/-- C5 (witness): target 3 bytes, block size 2, sidecar of 2 bytes: the
writer resumes at `start_block = 1`, positioned at byte 2, no truncation. -/
theorem blockWriterNew_resume_spec_witness :
    Punch.blockWriterNew 3 2 true true 2 = Punch.WriterInit.writer 1 2 false :=
  (blockWriterNew_resume_spec 3 2 2 (by norm_num) (by norm_num)).1
    (by norm_num)

/-- C2: when the receiver's main loop gets `BlockComplete(b)` with `b + 1`
equal to the index of the block currently in progress, it sends
`BlockCompleteAck(b)` and changes no receiver state: the writer (its
`next_block`, chunk-presence bit array, block buffer contents and file
bytes) and the current block buffer are returned unchanged, the only output
is the ACK, and the loop does not exit. -/
theorem receiver_duplicate_blockComplete_ack (w : Punch.BlockWriter)
    (cb : Punch.BlockBuffer) (b : Nat) (data : List Nat)
    (h : b + 1 = w.nextBlock) :
    Punch.receiveStep w cb (Punch.TMsg.blockComplete b) data
      = Punch.RecvOutcome.ok w cb [Punch.TMsg.blockCompleteAck b] false := by
  simp only [Punch.receiveStep]
  rw [if_neg (by omega), if_pos h]

/-- C2 (witness): a concrete writer in progress on block 1 answering a
duplicate `BlockComplete(0)`. -/
theorem receiver_duplicate_blockComplete_ack_witness :
    Punch.receiveStep
        { blockSize := 4, chunkSize := 2, nextBlock := 1, lastBlock := 1,
          lastBlockSize := 4, buf := [0, 0, 0, 0],
          writeFlag := Punch.BitArray.new 2, fileData := [7, 7, 7, 7] }
        { bsize := 4, lastChunk := 1, lastChunkSize := 2 }
        (Punch.TMsg.blockComplete 0) []
      = Punch.RecvOutcome.ok
          { blockSize := 4, chunkSize := 2, nextBlock := 1, lastBlock := 1,
            lastBlockSize := 4, buf := [0, 0, 0, 0],
            writeFlag := Punch.BitArray.new 2, fileData := [7, 7, 7, 7] }
          { bsize := 4, lastChunk := 1, lastChunkSize := 2 }
          [Punch.TMsg.blockCompleteAck 0] false :=
  receiver_duplicate_blockComplete_ack _ _ 0 [] (by decide)

/-- C10: for a `FilePart` datagram whose block field matches the block
currently in progress, `BlockBuffer::write` panics rather than ignoring the
message exactly when the chunk index exceeds the current block's last chunk
index, or the payload length differs from `chunk_size` for a non-final
chunk, or differs from the last chunk's size for the final chunk; and the
receiver's loop iteration then ends in the panic, so a single malformed
datagram from the connected peer crashes the receiver. -/
theorem receiver_malformed_filePart_panics (w : Punch.BlockWriter)
    (cb : Punch.BlockBuffer) (chunk : Nat) (data : List Nat) :
    (Punch.blockWrite w cb chunk data = none ↔
      cb.lastChunk < chunk ∨
      (chunk < cb.lastChunk ∧ data.length ≠ w.chunkSize) ∨
      (chunk = cb.lastChunk ∧ data.length ≠ cb.lastChunkSize)) ∧
    (Punch.blockWrite w cb chunk data = none →
      Punch.receiveStep w cb (Punch.TMsg.filePart w.nextBlock chunk) data
        = Punch.RecvOutcome.panicked) := by
  constructor
  · unfold Punch.blockWrite
    split_ifs with h1 h2 h3 h4 <;> simp <;> omega
  · intro hpanic
    simp only [Punch.receiveStep]
    rw [if_pos trivial, hpanic]

/-- C10 (witness): a chunk index past the last chunk of the current block
makes the loop iteration panic. -/
theorem receiver_malformed_filePart_panics_witness :
    Punch.receiveStep
        { blockSize := 4, chunkSize := 2, nextBlock := 0, lastBlock := 0,
          lastBlockSize := 4, buf := [0, 0, 0, 0],
          writeFlag := Punch.BitArray.new 2, fileData := [] }
        { bsize := 4, lastChunk := 1, lastChunkSize := 2 }
        (Punch.TMsg.filePart 0 5) [1, 2]
      = Punch.RecvOutcome.panicked :=
  (receiver_malformed_filePart_panics
      { blockSize := 4, chunkSize := 2, nextBlock := 0, lastBlock := 0,
        lastBlockSize := 4, buf := [0, 0, 0, 0],
        writeFlag := Punch.BitArray.new 2, fileData := [] }
      { bsize := 4, lastChunk := 1, lastChunkSize := 2 } 5 [1, 2]).2
    (by decide)

/-- C6: for every byte string given to the rendezvous `Message` decoder,
decoding succeeds if and only if a message deserializes from a prefix and
the remaining bytes are exactly the 8-byte magic
`{205, 126, 86, 230, 111, 189, 169, 142}`; any input whose trailing bytes
after the message differ from the magic is rejected; and
`decode(encode(m))` succeeds with `m` for every well-formed message. -/
theorem rendezvous_decode_magic_framing :
    (∀ d : List Nat, (Punch.RMsg.decode d).isSome ↔
        ∃ m, Punch.parseRMsg d = some (m, Punch.MAGIC)) ∧
    (∀ (d : List Nat) (m : Punch.RMsg) (rest : List Nat),
        Punch.parseRMsg d = some (m, rest) →
        (∃ pre, d = pre ++ rest) ∧
        (rest ≠ Punch.MAGIC → Punch.RMsg.decode d = none)) ∧
    (∀ m : Punch.RMsg, Punch.RMsg.wfB m = true →
        Punch.RMsg.decode (Punch.RMsg.encode m) = some m) := by
  refine ⟨?_, ?_, ?_⟩
  · intro d
    unfold Punch.RMsg.decode
    rcases hp : Punch.parseRMsg d with _ | p
    · simp
    · by_cases hm : p.2 = Punch.MAGIC
      · simp only [hm]
        constructor
        · intro _
          exact ⟨p.1, by rw [← hm]⟩
        · intro _
          simp
      · simp only []
        rw [if_neg hm]
        simp only [Option.isSome_none, Bool.false_eq_true, false_iff]
        intro ⟨m, hmeq⟩
        apply hm
        have : p = (m, Punch.MAGIC) := Option.some.inj hmeq
        rw [this]
  · intro d m rest h
    refine ⟨Punch.parseRMsg_suffix d m rest h, fun hne => ?_⟩
    unfold Punch.RMsg.decode
    rw [h]
    simp only []
    rw [if_neg hne]
  · intro m hwf
    unfold Punch.RMsg.decode Punch.RMsg.encode
    rw [Punch.parseRMsg_enc m Punch.MAGIC hwf]
    simp

/-- C6 (witness): the round trip evaluated at `Register{id: [1, 2]}`. -/
theorem rendezvous_decode_magic_framing_witness :
    Punch.RMsg.decode (Punch.RMsg.encode (Punch.RMsg.register [1, 2]))
      = some (Punch.RMsg.register [1, 2]) :=
  rendezvous_decode_magic_framing.2.2 (Punch.RMsg.register [1, 2])
    (by decide)

/-- C8: in `DetectSymmetricNat` (against two distinct server endpoints),
once one `Address` reply has been received from each endpoint the operation
resolves, and it resolves with success if and only if the two observed
external addresses are equal — otherwise with the symmetric-nat error; and
a non-success verdict makes the peer abort without registering, because
`run` propagates the error before `Register` is performed. -/
theorem detectSymmetricNat_spec (s1 s2 : Punch.SockAddr)
    (ms : List (Punch.RMsg × Punch.SockAddr)) (hne : s1 ≠ s2) :
    ((∃ a, (Punch.RMsg.address a, s1) ∈ ms) →
      (∃ a, (Punch.RMsg.address a, s2) ∈ ms) →
      ∃ v, (Punch.runDetect s1 s2 ms).1 = Punch.POut.resolved v) ∧
    (∀ v, (Punch.runDetect s1 s2 ms).1 = Punch.POut.resolved v →
      ∃ a1 a2, (Punch.RMsg.address a1, s1) ∈ ms ∧
        (Punch.RMsg.address a2, s2) ∈ ms ∧
        (v = Punch.DetectOut.ok ↔ a1 = a2)) ∧
    (∀ v, v ≠ Punch.DetectOut.ok →
      Punch.peerRegistersAfterDetect v = false) := by
  refine ⟨?_, ?_, ?_⟩
  · intro h1 h2
    obtain ⟨v, hv⟩ := Punch.detect_resolves s1 s2 hne ms ⟨none, none⟩
      (Or.inr h1) (Or.inr h2) (by simp)
    exact ⟨v, (Punch.runDetect_resolved s1 s2 ms v).mpr hv⟩
  · intro v hv
    have hr := (Punch.runDetect_resolved s1 s2 ms v).mp hv
    obtain ⟨a1, a2, h1, h2, hiff⟩ := Punch.detect_verdict s1 s2 ms _ v hr
    refine ⟨a1, a2, ?_, ?_, hiff⟩
    · rcases h1 with h1 | h1
      · cases h1
      · exact h1
    · rcases h2 with h2 | h2
      · cases h2
      · exact h2
  · intro v hv
    cases v
    · exact absurd rfl hv
    · rfl

/-- C8 (witness): two distinct server endpoints report different observed
addresses; the operation resolves (with the symmetric-nat verdict). -/
theorem detectSymmetricNat_spec_witness :
    ∃ v, (Punch.runDetect (Punch.SockAddr.v4 [1, 1, 1, 1] 10)
        (Punch.SockAddr.v4 [2, 2, 2, 2] 20)
        [(Punch.RMsg.address (Punch.SockAddr.v4 [9, 9, 9, 9] 1),
            Punch.SockAddr.v4 [1, 1, 1, 1] 10),
          (Punch.RMsg.address (Punch.SockAddr.v4 [9, 9, 9, 8] 2),
            Punch.SockAddr.v4 [2, 2, 2, 2] 20)]).1
      = Punch.POut.resolved v :=
  (detectSymmetricNat_spec (Punch.SockAddr.v4 [1, 1, 1, 1] 10)
      (Punch.SockAddr.v4 [2, 2, 2, 2] 20) _ (by decide)).1
    ⟨Punch.SockAddr.v4 [9, 9, 9, 9] 1, by decide⟩
    ⟨Punch.SockAddr.v4 [9, 9, 9, 8] 2, by decide⟩

/-- C9: the registry sweep runs only when a `Query` arrives on the second
socket while the registry holds more than 256 entries and more than 600 s
have elapsed since the last sweep — in every other case the second socket
leaves the state unchanged, and the first socket's dispatch never touches
the GC timestamp and never removes a registered id.  When the sweep runs,
it removes exactly the entries whose `last_seen` is more than 600 s old,
keeps every entry within the window, and sets the GC timestamp to now. -/
theorem server_gc_only_on_sock2_query (st : Punch.ServerState)
    (msg : Punch.RMsg) (src : Punch.SockAddr) (now : Nat) :
    (¬(msg = Punch.RMsg.query ∧
        st.peers.length > Punch.GC_SIZE_THRESHOLD ∧
        now - st.gcAt > Punch.GC_WINDOW_SECS) →
      (Punch.serverStep2 st msg src now).1 = st) ∧
    ((Punch.serverStep1 st msg src now).1.gcAt = st.gcAt ∧
      ∀ e ∈ st.peers,
        ∃ e', e' ∈ (Punch.serverStep1 st msg src now).1.peers ∧
          e'.id = e.id) ∧
    (st.peers.Pairwise (fun e1 e2 => e1.id ≠ e2.id) →
      msg = Punch.RMsg.query →
      st.peers.length > Punch.GC_SIZE_THRESHOLD →
      now - st.gcAt > Punch.GC_WINDOW_SECS →
      (Punch.serverStep2 st msg src now).1.peers
          = st.peers.filter (fun e =>
              decide (now - e.lastSeen ≤ Punch.GC_WINDOW_SECS)) ∧
        (Punch.serverStep2 st msg src now).1.gcAt = now) := by
  refine ⟨?_, ⟨?_, ?_⟩, ?_⟩
  · intro hnot
    cases msg <;> try rfl
    simp only [Punch.serverStep2]
    rw [if_neg]
    intro hc
    exact hnot ⟨rfl, hc.1, hc.2⟩
  · cases msg <;>
      first
      | rfl
      | (simp only [Punch.serverStep1]; split <;> rfl)
  · intro e he
    cases msg <;>
      first
      | exact ⟨e, he, rfl⟩
      | skip
    case register id =>
      simp only [Punch.serverStep1, Punch.insertPeer]
      by_cases hany : st.peers.any fun e => e.id = id
      · rw [if_pos hany]
        refine ⟨if e.id = id then ⟨id, src, now⟩ else e,
          List.mem_map_of_mem _ he, ?_⟩
        by_cases hid : e.id = id <;> simp [hid]
      · rw [if_neg hany]
        exact ⟨e, List.mem_append_left _ he, rfl⟩
    case lookup pid =>
      rcases hl : Punch.lookupPeer st.peers pid with _ | a <;>
        simp only [Punch.serverStep1, hl] <;> exact ⟨e, he, rfl⟩
  · intro hp hmsg hlen helap
    subst hmsg
    simp only [Punch.serverStep2]
    rw [if_pos ⟨hlen, helap⟩]
    exact ⟨Punch.peerGc_eq_filter st.peers now hp, rfl⟩

/-- C9 (witness): 257 distinct registered peers, all last seen at time 0,
and a `Query` on socket 2 at time 601 with the last sweep at time 0: the
sweep runs, removing exactly the stale entries and stamping the GC time. -/
theorem server_gc_only_on_sock2_query_witness :
    (Punch.serverStep2
        (Punch.ServerState.mk ((List.range 257).map fun i =>
          Punch.PeerEntry.mk [i] (Punch.SockAddr.v4 [0, 0, 0, 0] 0) 0) 0)
        Punch.RMsg.query (Punch.SockAddr.v4 [8, 8, 8, 8] 9) 601).1.peers
      = ((List.range 257).map fun i =>
          Punch.PeerEntry.mk [i] (Punch.SockAddr.v4 [0, 0, 0, 0] 0) 0).filter
          (fun e => decide (601 - e.lastSeen ≤ Punch.GC_WINDOW_SECS)) ∧
    (Punch.serverStep2
        (Punch.ServerState.mk ((List.range 257).map fun i =>
          Punch.PeerEntry.mk [i] (Punch.SockAddr.v4 [0, 0, 0, 0] 0) 0) 0)
        Punch.RMsg.query (Punch.SockAddr.v4 [8, 8, 8, 8] 9) 601).1.gcAt
      = 601 :=
  (server_gc_only_on_sock2_query _ Punch.RMsg.query _ 601).2.2
    (by
      rw [List.pairwise_map]
      apply List.Pairwise.imp ?_ (List.pairwise_lt_range 257)
      intro i j hij
      simp only [ne_eq, List.cons.injEq, and_true]
      omega) rfl (by simp [Punch.GC_SIZE_THRESHOLD]) (by decide)
